import Mathlib

/-!
Verification development for the `p2` crate: the P² (piecewise-parabolic)
streaming quantile and equiprobable-histogram estimators
(`src/lib.rs`, `src/quantile.rs`, `src/histogram.rs`).

Embedding choices:

* Rust `f64`/`f32` values are modelled by `Fp`: an exact rational together
  with the three IEEE special values NaN, `+∞` and `-∞`.  Arithmetic follows
  the IEEE special-value rules (`∞ - ∞ = NaN`, `x / ±∞ = 0`, division of a
  nonzero finite value by zero gives a signed infinity, every operation on
  NaN gives NaN, comparisons with NaN are false).  Two deliberate
  abstractions: finite arithmetic is exact (no rounding — every claim below
  is either rounding-insensitive or checked with a tolerance that dwarfs
  f64 rounding error), and there is no negative zero (the sign of zero never
  influences any control path of this program: every division that feeds a
  comparison has a nonzero denominator whenever the marker-count invariant
  holds).
* Rust slices become `List Fp`; an out-of-bounds read `l[i]` is modelled by
  `fget` with a NaN default — every in-range access coincides with the
  source, and the `estimate`/`count` entry points, whose out-of-range
  behaviour matters (they panic), are modelled in `Option` with `none`
  standing for the panic.
* `usize` casts of floats (`as usize`) saturate, as in Rust.
-/

/-! Kernel-reducible rational arithmetic.  The standard `Rat.add`,
`Rat.sub`, `Rat.mul` and `Rat.inv` are `@[irreducible]` in this toolchain,
which would prevent `decide` from evaluating the model on concrete inputs;
these helpers compute the same values through `mkRat`, and are rewritten to
the standard operations by the lemmas that follow. -/

def ratAdd (a b : ℚ) : ℚ := mkRat (a.num * b.den + b.num * a.den) (a.den * b.den)

def ratSub (a b : ℚ) : ℚ := mkRat (a.num * b.den - b.num * a.den) (a.den * b.den)

def ratMul (a b : ℚ) : ℚ := mkRat (a.num * b.num) (a.den * b.den)

def ratDiv (a b : ℚ) : ℚ :=
  if 0 ≤ b.num then mkRat (a.num * b.den) (a.den * b.num.toNat)
  else mkRat (-(a.num * b.den)) (a.den * (-b.num).toNat)

theorem ratCastAux (A B : ℤ) (C D : ℕ) (hC : ((C : ℚ)) ≠ 0) (hD : ((D : ℚ)) ≠ 0) :
    ((A * D + B * C : ℤ) : ℚ) / ((C * D : ℕ) : ℚ) = (A : ℚ) / C + (B : ℚ) / D := by
  push_cast
  field_simp

theorem ratCastAuxSub (A B : ℤ) (C D : ℕ) (hC : ((C : ℚ)) ≠ 0) (hD : ((D : ℚ)) ≠ 0) :
    ((A * D - B * C : ℤ) : ℚ) / ((C * D : ℕ) : ℚ) = (A : ℚ) / C - (B : ℚ) / D := by
  push_cast
  field_simp
  ring

theorem ratCastAuxMul (A B : ℤ) (C D : ℕ) (hC : ((C : ℚ)) ≠ 0) (hD : ((D : ℚ)) ≠ 0) :
    ((A * B : ℤ) : ℚ) / ((C * D : ℕ) : ℚ) = ((A : ℚ) / C) * ((B : ℚ) / D) := by
  push_cast
  field_simp

theorem ratCastAuxDiv (A B : ℤ) (C D E : ℕ) (s : ℤ)
    (hC : ((C : ℚ)) ≠ 0) (hD : ((D : ℚ)) ≠ 0) (hB : ((B : ℚ)) ≠ 0)
    (hE : (E : ℤ) = s * B) (hs : s = 1 ∨ s = -1) :
    ((s * (A * D) : ℤ) : ℚ) / ((C * E : ℕ) : ℚ) = ((A : ℚ) / C) / ((B : ℚ) / D) := by
  have hE2 : ((E : ℚ)) = (s : ℚ) * B := by exact_mod_cast hE
  have hs2 : ((s : ℚ)) = 1 ∨ ((s : ℚ)) = -1 := by
    rcases hs with h | h <;> [left; right] <;> exact_mod_cast h
  push_cast
  rw [hE2]
  rcases hs2 with h | h <;> rw [h] <;> field_simp

theorem ratAdd_eq (a b : ℚ) : ratAdd a b = a + b := by
  have ha : ((a.den : ℚ)) ≠ 0 := by exact_mod_cast a.den_ne_zero
  have hb : ((b.den : ℚ)) ≠ 0 := by exact_mod_cast b.den_ne_zero
  rw [ratAdd, Rat.mkRat_eq_div, ratCastAux a.num b.num a.den b.den ha hb,
    Rat.num_div_den, Rat.num_div_den]

theorem ratSub_eq (a b : ℚ) : ratSub a b = a - b := by
  have ha : ((a.den : ℚ)) ≠ 0 := by exact_mod_cast a.den_ne_zero
  have hb : ((b.den : ℚ)) ≠ 0 := by exact_mod_cast b.den_ne_zero
  rw [ratSub, Rat.mkRat_eq_div, ratCastAuxSub a.num b.num a.den b.den ha hb,
    Rat.num_div_den, Rat.num_div_den]

theorem ratMul_eq (a b : ℚ) : ratMul a b = a * b := by
  have ha : ((a.den : ℚ)) ≠ 0 := by exact_mod_cast a.den_ne_zero
  have hb : ((b.den : ℚ)) ≠ 0 := by exact_mod_cast b.den_ne_zero
  rw [ratMul, Rat.mkRat_eq_div, ratCastAuxMul a.num b.num a.den b.den ha hb,
    Rat.num_div_den, Rat.num_div_den]

theorem ratDiv_eq (a b : ℚ) : ratDiv a b = a / b := by
  have ha : ((a.den : ℚ)) ≠ 0 := by exact_mod_cast a.den_ne_zero
  have hb : ((b.den : ℚ)) ≠ 0 := by exact_mod_cast b.den_ne_zero
  rcases lt_trichotomy b.num 0 with hbn | hbn | hbn
  · have hB : ((b.num : ℚ)) ≠ 0 := by
      simpa using (show (b.num : ℚ) < 0 by exact_mod_cast hbn).ne
    have key := ratCastAuxDiv a.num b.num a.den b.den (-b.num).toNat (-1) ha hb hB
      (by omega) (Or.inr rfl)
    rw [ratDiv, if_neg (by omega), show -(a.num * (b.den : ℤ)) = -1 * (a.num * b.den) by ring,
      Rat.mkRat_eq_div, key, Rat.num_div_den, Rat.num_div_den]
  · have hbq : b = 0 := by
      have := b.num_div_den
      rw [hbn] at this
      simpa using this.symm
    subst hbq
    simp [ratDiv, Rat.mkRat_eq_div]
  · have hB : ((b.num : ℚ)) ≠ 0 := by
      simpa using (show (0 : ℚ) < b.num by exact_mod_cast hbn).ne'
    have key := ratCastAuxDiv a.num b.num a.den b.den b.num.toNat 1 ha hb hB
      (by omega) (Or.inl rfl)
    rw [ratDiv, if_pos (by omega), show a.num * (b.den : ℤ) = 1 * (a.num * b.den) by ring,
      Rat.mkRat_eq_div, key, Rat.num_div_den, Rat.num_div_den]

inductive Fp where
  | nan : Fp
  | finite : ℚ → Fp
  | posInf : Fp
  | negInf : Fp
deriving DecidableEq, Repr

namespace Fp

def isNan : Fp → Bool
  | nan => true
  | _ => false

def isFinite : Fp → Bool
  | finite _ => true
  | _ => false

/-- IEEE `<` (false whenever either side is NaN). -/
def lt : Fp → Fp → Bool
  | nan, _ => false
  | _, nan => false
  | negInf, negInf => false
  | negInf, _ => true
  | _, negInf => false
  | posInf, _ => false
  | finite _, posInf => true
  | finite a, finite b => decide (a < b)

/-- IEEE `<=` (false whenever either side is NaN). -/
def le : Fp → Fp → Bool
  | nan, _ => false
  | _, nan => false
  | negInf, _ => true
  | _, negInf => false
  | _, posInf => true
  | posInf, _ => false
  | finite a, finite b => decide (a ≤ b)

def neg : Fp → Fp
  | nan => nan
  | finite a => finite (-a)
  | posInf => negInf
  | negInf => posInf

def add : Fp → Fp → Fp
  | nan, _ => nan
  | _, nan => nan
  | posInf, negInf => nan
  | negInf, posInf => nan
  | posInf, _ => posInf
  | _, posInf => posInf
  | negInf, _ => negInf
  | _, negInf => negInf
  | finite a, finite b => finite (ratAdd a b)

def sub (a b : Fp) : Fp := add a (neg b)

def mul : Fp → Fp → Fp
  | nan, _ => nan
  | _, nan => nan
  | posInf, posInf => posInf
  | posInf, negInf => negInf
  | negInf, posInf => negInf
  | negInf, negInf => posInf
  | posInf, finite b => if b = 0 then nan else if 0 < b then posInf else negInf
  | finite a, posInf => if a = 0 then nan else if 0 < a then posInf else negInf
  | negInf, finite b => if b = 0 then nan else if 0 < b then negInf else posInf
  | finite a, negInf => if a = 0 then nan else if 0 < a then negInf else posInf
  | finite a, finite b => finite (ratMul a b)

def div : Fp → Fp → Fp
  | nan, _ => nan
  | _, nan => nan
  | posInf, posInf => nan
  | posInf, negInf => nan
  | negInf, posInf => nan
  | negInf, negInf => nan
  | posInf, finite b => if 0 ≤ b then posInf else negInf
  | negInf, finite b => if 0 ≤ b then negInf else posInf
  | finite _, posInf => finite 0
  | finite _, negInf => finite 0
  | finite a, finite b =>
      if b = 0 then (if a = 0 then nan else if 0 < a then posInf else negInf)
      else finite (ratDiv a b)

/-- Largest `usize` value (64-bit target). -/
def usizeMax : ℕ := 2 ^ 64 - 1

/-- `as usize` on an `f64`: saturating cast truncating toward zero
(for a positive rational, truncation is `num / den` in ℕ). -/
def toUsize : Fp → ℕ
  | nan => 0
  | negInf => 0
  | posInf => usizeMax
  | finite a => if a ≤ 0 then 0 else min (a.num.toNat / a.den) usizeMax

/-- Total preorder placing NaN first; it agrees with the comparator
`partial_cmp(..).unwrap_or(Equal)` of the source on every NaN-free list,
and NaN never reaches a sort in any execution (`add` returns before the
fill-phase store on NaN input). -/
def sortLe (a b : Fp) : Bool := a.isNan || (!b.isNan && !(lt b a))

@[simp] theorem isNan_nan : isNan nan = true := rfl

@[simp] theorem isNan_finite (a : ℚ) : isNan (finite a) = false := rfl

@[simp] theorem isNan_posInf : isNan posInf = false := rfl

@[simp] theorem isNan_negInf : isNan negInf = false := rfl

@[simp] theorem isFinite_finite (a : ℚ) : isFinite (finite a) = true := rfl

@[simp] theorem add_finite (a b : ℚ) : add (finite a) (finite b) = finite (a + b) := by
  simp [add, ratAdd_eq]

@[simp] theorem sub_finite (a b : ℚ) : sub (finite a) (finite b) = finite (a - b) := by
  simp [sub, neg, add, ratAdd_eq, sub_eq_add_neg]

@[simp] theorem mul_finite (a b : ℚ) : mul (finite a) (finite b) = finite (a * b) := by
  simp [mul, ratMul_eq]

theorem div_finite {b : ℚ} (a : ℚ) (hb : b ≠ 0) :
    div (finite a) (finite b) = finite (a / b) := by
  simp [div, hb, ratDiv_eq]

@[simp] theorem le_finite (a b : ℚ) : le (finite a) (finite b) = decide (a ≤ b) := rfl

@[simp] theorem lt_finite (a b : ℚ) : lt (finite a) (finite b) = decide (a < b) := rfl

@[simp] theorem lt_finite_posInf (a : ℚ) : lt (finite a) posInf = true := rfl

@[simp] theorem lt_posInf (x : Fp) : lt posInf x = false := by cases x <;> rfl

@[simp] theorem lt_nan_left (x : Fp) : lt nan x = false := by cases x <;> rfl

@[simp] theorem lt_nan_right (x : Fp) : lt x nan = false := by cases x <;> rfl

theorem isFinite_iff {x : Fp} : x.isFinite = true ↔ ∃ a : ℚ, x = finite a := by
  cases x <;> simp [isFinite]

/-- Extract the rational value of a finite `Fp` (junk value 0 otherwise). -/
def toQ : Fp → ℚ
  | finite a => a
  | _ => 0

@[simp] theorem toQ_finite (a : ℚ) : toQ (finite a) = a := rfl

end Fp

/-! ### List helpers for the slice operations of the source -/

/-- Slice read `l[i]`; the NaN default is never exercised by an in-range read. -/
def fget (l : List Fp) (i : ℕ) : Fp := l.getD i Fp.nan

theorem fget_set_self {l : List Fp} {i : ℕ} (h : i < l.length) (a : Fp) :
    fget (l.set i a) i = a := by
  simp [fget, List.getD_eq_getElem?_getD, List.getElem?_set_self h]

theorem fget_set_ne {l : List Fp} {i j : ℕ} (h : i ≠ j) (a : Fp) :
    fget (l.set i a) j = fget l j := by
  simp [fget, List.getD_eq_getElem?_getD, List.getElem?_set_ne h]

theorem fget_eq_getElem {l : List Fp} {i : ℕ} (h : i < l.length) :
    fget l i = l[i] := by
  simp [fget, List.getD_eq_getElem?_getD, List.getElem?_eq_getElem h]

/-- The count-update loop: add one to every entry at index `≥ k`
(`for i in k..m { n[i] += 1.0 }`). -/
def bumpFrom (k : ℕ) : List Fp → List Fp
  | [] => []
  | v :: t => (if k = 0 then Fp.add v (Fp.finite 1) else v) :: bumpFrom (k - 1) t

@[simp] theorem length_bumpFrom (k : ℕ) (l : List Fp) :
    (bumpFrom k l).length = l.length := by
  induction l generalizing k with
  | nil => rfl
  | cons v t ih => simp [bumpFrom, ih]

theorem fget_bumpFrom (k : ℕ) (l : List Fp) (i : ℕ) (h : i < l.length) :
    fget (bumpFrom k l) i = if k ≤ i then Fp.add (fget l i) (Fp.finite 1) else fget l i := by
  induction l generalizing k i with
  | nil => simp at h
  | cons v t ih =>
      cases i with
      | zero =>
          cases k with
          | zero => simp [bumpFrom, fget]
          | succ k => simp [bumpFrom, fget]
      | succ i =>
          have ht : i < t.length := by simpa using h
          cases k with
          | zero =>
              have := ih 0 i ht
              simpa [bumpFrom, fget, List.getD] using this
          | succ k =>
              have := ih k i ht
              simpa [bumpFrom, fget, List.getD, Nat.succ_le_succ_iff] using this

/-- `sort_by(partial_cmp(..).unwrap_or(Equal))` of the source.  On NaN-free
lists (the only lists ever sorted by the program) the comparator is an
antisymmetric total preorder, so the sorted permutation is unique and any
correct sort models it exactly. -/
def sortFp (l : List Fp) : List Fp :=
  List.insertionSort (fun a b => Fp.sortLe a b = true) l

theorem sortFp_perm (l : List Fp) : (sortFp l).Perm l :=
  List.perm_insertionSort _ l

instance : IsTotal Fp (fun a b => Fp.sortLe a b = true) where
  total := by
    intro a b
    cases a <;> cases b <;> simp [Fp.sortLe, Fp.isNan, Fp.lt]
    exact le_total _ _

instance : IsTrans Fp (fun a b => Fp.sortLe a b = true) where
  trans := by
    intro a b c hab hbc
    cases a <;> cases b <;> cases c <;>
      simp_all [Fp.sortLe, Fp.isNan, Fp.lt]
    linarith

theorem sortFp_sorted (l : List Fp) :
    (sortFp l).Pairwise (fun a b => Fp.sortLe a b = true) :=
  List.sorted_insertionSort _ l

/-! ### Interpolation functions (`src/lib.rs`) -/

/-- `parabolic(i, d, q, n)` of `lib.rs`. -/
def parabolic (i : ℕ) (d : Fp) (q n : List Fp) : Fp :=
  Fp.add (fget q i)
    (Fp.mul (Fp.div d (Fp.sub (fget n (i + 1)) (fget n (i - 1))))
      (Fp.add
        (Fp.div (Fp.mul (Fp.add (Fp.sub (fget n i) (fget n (i - 1))) d)
                        (Fp.sub (fget q (i + 1)) (fget q i)))
                (Fp.sub (fget n (i + 1)) (fget n i)))
        (Fp.div (Fp.mul (Fp.sub (Fp.sub (fget n (i + 1)) (fget n i)) d)
                        (Fp.sub (fget q i) (fget q (i - 1))))
                (Fp.sub (fget n i) (fget n (i - 1))))))

/-- `linear(i, d, q, n)` of `lib.rs`, including its float-cast neighbour
index `(i as f64 + d) as usize`. -/
def linear (i : ℕ) (d : Fp) (q n : List Fp) : Fp :=
  Fp.add (fget q i)
    (Fp.div (Fp.mul d (Fp.sub (fget q (Fp.add (Fp.finite (i : ℚ)) d).toUsize) (fget q i)))
            (Fp.sub (fget n (Fp.add (Fp.finite (i : ℚ)) d).toUsize) (fget n i)))

/-! ### The shared relocation step and pass

The loop body at `quantile.rs:118-136` and `histogram.rs:101-120` is
textually identical once the desired position `n1[i]` has been read, so it
is defined once here. -/

/-- One iteration of the relocation loop for interior marker `i`, given the
desired position `n1i`. -/
def adjust (i : ℕ) (n1i : Fp) (q n : List Fp) : List Fp × List Fp :=
  let d := Fp.sub n1i (fget n i)
  if (Fp.le (Fp.finite 1) d && Fp.lt (Fp.finite 1) (Fp.sub (fget n (i + 1)) (fget n i)))
      || (Fp.le d (Fp.finite (-1)) && Fp.lt (Fp.sub (fget n (i - 1)) (fget n i)) (Fp.finite (-1)))
  then
    let d2 : Fp := if Fp.lt (Fp.finite 0) d then Fp.finite 1 else Fp.finite (-1)
    let q1 := parabolic i d2 q n
    let qi :=
      if Fp.lt (fget q (i - 1)) q1 && Fp.lt q1 (fget q (i + 1)) then q1
      else linear i d2 q n
    (q.set i qi, n.set i (Fp.add (fget n i) d2))
  else (q, n)

/-- The relocation loop over interior markers `i, i+1, …` (`fuel` many),
reading the desired position from `n1f` on the current counts. -/
def relocPass (n1f : List Fp → ℕ → Fp) : ℕ → ℕ → List Fp × List Fp → List Fp × List Fp
  | _, 0, st => st
  | i, fuel + 1, st =>
      relocPass n1f (i + 1) fuel (adjust i (n1f st.2 i) st.1 st.2)

/-! ### The quantile estimator (`src/quantile.rs`) -/

structure Quantile where
  q : List Fp
  n : List Fp
  n1 : List Fp
  /-- the `f32` parameter, used through `self.p as f64` (exact widening) -/
  p : Fp
  cnt : ℕ
deriving DecidableEq, Repr

namespace Quantile

/-- `Quantile::clear`. -/
def clear (s : Quantile) : Quantile :=
  { s with
    q := [Fp.finite 0, Fp.finite 0, Fp.finite 0, Fp.finite 0, Fp.finite 0]
    n := [Fp.finite 1, Fp.finite 2, Fp.finite 3, Fp.finite 4, Fp.finite 5]
    n1 := [Fp.finite 1,
           Fp.add (Fp.finite 1) (Fp.mul (Fp.finite 2) s.p),
           Fp.add (Fp.finite 1) (Fp.mul (Fp.finite 4) s.p),
           Fp.add (Fp.finite 3) (Fp.mul (Fp.finite 2) s.p),
           Fp.finite 5]
    cnt := 5 }

/-- `Quantile::new` (the `SimpleError` message is abstracted to `Unit`). -/
def new (p : Fp) : Except Unit Quantile :=
  if Fp.le p (Fp.finite 0) || Fp.le (Fp.finite 1) p then Except.error ()
  else Except.ok (clear { q := [], n := [], n1 := [], p := p, cnt := 0 })

/-- The bucket-location chain of `Quantile::add` (lines 92-107): yields the
possibly end-replaced marker array and the bucket index `k`. -/
def locate (q : List Fp) (x : Fp) : List Fp × ℕ :=
  if Fp.lt x (fget q 0) then (q.set 0 x, 1)
  else if Fp.le (fget q 0) x && Fp.lt x (fget q 1) then (q, 1)
  else if Fp.le (fget q 1) x && Fp.lt x (fget q 2) then (q, 2)
  else if Fp.le (fget q 2) x && Fp.lt x (fget q 3) then (q, 3)
  else if Fp.le (fget q 3) x && Fp.le x (fget q 4) then (q, 4)
  else if Fp.lt (fget q 4) x then (q.set 4 x, 4)
  else (q, 0)

/-- The desired-position updates of `Quantile::add` (lines 113-116):
`n1[1] += p/2; n1[2] += p; n1[3] += (1+p)/2; n1[4] += 1`. -/
def bumpN1 (s : Quantile) : List Fp :=
  ((((s.n1.set 1
    (Fp.add (fget s.n1 1) (Fp.div s.p (Fp.finite 2)))).set 2
    (Fp.add (fget s.n1 2) s.p)).set 3
    (Fp.add (fget s.n1 3) (Fp.div (Fp.add (Fp.finite 1) s.p) (Fp.finite 2)))).set 4
    (Fp.add (fget s.n1 4) (Fp.finite 1)))

/-- `Quantile::add`; returns the pair (return value, new state). -/
def add (s : Quantile) (x : Fp) : Fp × Quantile :=
  if x.isNan then
    if s.cnt = 0 then (fget s.q 2, s) else (x, s)
  else if 0 < s.cnt then
    let cnt2 := s.cnt - 1
    let q2 := s.q.set cnt2 x
    if cnt2 = 0 then
      let qs := sortFp q2
      (fget qs 2, { s with q := qs, cnt := 0 })
    else (Fp.nan, { s with q := q2, cnt := cnt2 })
  else
    let bk := locate s.q x
    let n2 := bumpFrom bk.2 s.n
    let n1b := bumpN1 s
    let st := relocPass (fun _ i => fget n1b i) 1 3 (bk.1, n2)
    (fget st.1 2, { s with q := st.1, n := st.2, n1 := n1b, cnt := 0 })

/-- `Quantile::estimate`; `none` models the out-of-bounds panic (including
the `usize` underflow of `marker - 1` at `marker = 0`). -/
def estimate (s : Quantile) (marker : ℕ) : Option Fp :=
  if s.cnt ≠ 0 then some Fp.nan
  else if marker = 0 then none
  else if marker - 1 < s.q.length then some (fget s.q (marker - 1)) else none

/-- `Quantile::count`; `none` models the out-of-bounds panic. -/
def count (s : Quantile) (marker : ℕ) : Option ℕ :=
  if s.cnt ≠ 0 then some 0
  else if marker = 0 then none
  else if marker - 1 < s.n.length then some (fget s.n (marker - 1)).toUsize else none

end Quantile

/-- Feed a list of observations in order. -/
def runQ (s : Quantile) (xs : List Fp) : Quantile :=
  xs.foldl (fun t x => (t.add x).2) s

/-! ### The histogram estimator (`src/histogram.rs`) -/

/-- The loop `for i in 0..t { q[i] = 0.0 }` of `Histogram::clear`. -/
def setZeros (l : List Fp) : ℕ → List Fp
  | 0 => l
  | t + 1 => (setZeros l t).set t (Fp.finite 0)

/-- The loop `for i in 0..t { n[i] = (i + 1) as f64 }` of `Histogram::clear`. -/
def setIota (l : List Fp) : ℕ → List Fp
  | 0 => l
  | t + 1 => (setIota l t).set t (Fp.finite ((t + 1 : ℕ) : ℚ))

/-- The interior-boundary scan of `Histogram::add`
(`for i in 0..b-1 { if q[i] <= x && x < q[i+1] { k = i+1; break } }`),
starting at boundary `i` with `r` boundaries left; returns `0` when no
interval matched. -/
def scanBucket (q : List Fp) (x : Fp) : ℕ → ℕ → ℕ
  | _, 0 => 0
  | i, r + 1 =>
      if Fp.le (fget q i) x && Fp.lt x (fget q (i + 1)) then i + 1
      else scanBucket q x (i + 1) r

structure Histogram where
  q : List Fp
  n : List Fp
  /-- the `u16` bucket count -/
  b : ℕ
  cnt : ℕ
deriving DecidableEq, Repr

namespace Histogram

/-- `Histogram::clear`. -/
def clear (s : Histogram) : Histogram :=
  { s with
    cnt := s.b + 1
    q := setZeros s.q (s.b + 1)
    n := setIota s.n (s.b + 1) }

/-- `Histogram::new` (`u16::MAX = 65535`). -/
def new (buckets : ℕ) : Except Unit Histogram :=
  if buckets < 4 || buckets = 65535 then Except.error ()
  else Except.ok (clear
    { q := List.replicate (buckets + 1) (Fp.finite 0)
      n := List.replicate (buckets + 1) (Fp.finite 0)
      b := buckets
      cnt := 0 })

/-- The desired position `1.0 + i as f64 * (n[b] - 1.0) / b as f64`. -/
def n1f (b : ℕ) (n : List Fp) (i : ℕ) : Fp :=
  Fp.add (Fp.finite 1)
    (Fp.div (Fp.mul (Fp.finite (i : ℚ)) (Fp.sub (fget n b) (Fp.finite 1)))
            (Fp.finite (b : ℚ)))

/-- The bucket location of `Histogram::add` (lines 75-95): the `x < q[0]`
extension, the interior scan, and the final-interval / `x > q[b]` block. -/
def locate (b : ℕ) (q : List Fp) (x : Fp) : List Fp × ℕ :=
  let bk : List Fp × ℕ :=
    if Fp.lt x (fget q 0) then (q.set 0 x, 1)
    else (q, scanBucket q x 0 (b - 1))
  if bk.2 = 0 then
    if Fp.le (fget bk.1 (b - 1)) x && Fp.le x (fget bk.1 b) then (bk.1, b)
    else if Fp.lt (fget bk.1 b) x then (bk.1.set b x, b)
    else (bk.1, 0)
  else bk

/-- `Histogram::add`. -/
def add (s : Histogram) (x : Fp) : Histogram :=
  if x.isNan then s
  else if 0 < s.cnt then
    let cnt2 := s.cnt - 1
    let q2 := s.q.set cnt2 x
    if cnt2 = 0 then { s with q := sortFp q2, cnt := 0 }
    else { s with q := q2, cnt := cnt2 }
  else
    let bk2 := locate s.b s.q x
    let n2 := bumpFrom bk2.2 s.n
    let st := relocPass (n1f s.b) 1 (s.b - 1) (bk2.1, n2)
    { s with q := st.1, n := st.2 }

/-- `Histogram::estimate`; `none` models the out-of-bounds panic. -/
def estimate (s : Histogram) (marker : ℕ) : Option Fp :=
  if s.cnt ≠ 0 then some Fp.nan
  else if marker = 0 then none
  else if marker - 1 < s.q.length then some (fget s.q (marker - 1)) else none

/-- `Histogram::count`; `none` models the out-of-bounds panic. -/
def count (s : Histogram) (marker : ℕ) : Option ℕ :=
  if s.cnt ≠ 0 then some 0
  else if marker = 0 then none
  else if marker - 1 < s.n.length then some (fget s.n (marker - 1)).toUsize else none

end Histogram

/-- Feed a list of observations in order. -/
def runH (s : Histogram) (xs : List Fp) : Histogram :=
  xs.foldl (fun t x => t.add x) s

/-! ### Basic facts about the model -/

theorem Fp.le_iff_of_finite {a b : ℚ} :
    Fp.le (Fp.finite a) (Fp.finite b) = true ↔ a ≤ b := by simp

theorem Fp.lt_iff_of_finite {a b : ℚ} :
    Fp.lt (Fp.finite a) (Fp.finite b) = true ↔ a < b := by simp

theorem Fp.sortLe_imp_le {a b : Fp} (ha : a.isNan = false) (hb : b.isNan = false)
    (h : Fp.sortLe a b = true) : Fp.le a b = true := by
  cases a <;> cases b <;> simp_all [Fp.sortLe, Fp.isNan, Fp.lt, Fp.le] <;> linarith

theorem Fp.toUsize_natCast (t : ℕ) (h : t ≤ Fp.usizeMax) :
    Fp.toUsize (Fp.finite ((t : ℕ) : ℚ)) = t := by
  rcases Nat.eq_zero_or_pos t with h0 | h0
  · subst h0; simp [Fp.toUsize]
  · have hpos : ¬((t : ℚ) ≤ 0) := by
      push_neg
      exact_mod_cast h0
    simp only [Fp.toUsize, if_neg hpos]
    rw [Rat.num_natCast, Rat.den_natCast]
    simp [h]

theorem sortFp_isNan_false {l : List Fp} (h : ∀ v ∈ l, v.isNan = false) :
    ∀ v ∈ sortFp l, v.isNan = false := by
  intro v hv
  exact h v ((sortFp_perm l).mem_iff.mp hv)

theorem sortFp_isFinite {l : List Fp} (h : ∀ v ∈ l, v.isFinite = true) :
    ∀ v ∈ sortFp l, v.isFinite = true := by
  intro v hv
  exact h v ((sortFp_perm l).mem_iff.mp hv)

@[simp] theorem sortFp_length (l : List Fp) : (sortFp l).length = l.length :=
  (sortFp_perm l).length_eq

theorem fget_mem {l : List Fp} {i : ℕ} (h : i < l.length) : fget l i ∈ l := by
  rw [fget_eq_getElem h]
  exact List.getElem_mem h

theorem sortFp_mono {l : List Fp} (h : ∀ v ∈ l, v.isNan = false) :
    ∀ i, i + 1 < (sortFp l).length →
      Fp.le (fget (sortFp l) i) (fget (sortFp l) (i + 1)) = true := by
  intro i hi
  have h1 : i < (sortFp l).length := by omega
  have hp := sortFp_sorted l
  rw [List.pairwise_iff_get] at hp
  have hrel := hp ⟨i, h1⟩ ⟨i + 1, hi⟩ (by simp)
  have hni : (fget (sortFp l) i).isNan = false :=
    sortFp_isNan_false h _ (fget_mem h1)
  have hnj : (fget (sortFp l) (i + 1)).isNan = false :=
    sortFp_isNan_false h _ (fget_mem hi)
  refine Fp.sortLe_imp_le hni hnj ?_
  rw [fget_eq_getElem h1, fget_eq_getElem hi]
  simpa using hrel

theorem adjust_length (i : ℕ) (n1i : Fp) (q n : List Fp) :
    (adjust i n1i q n).1.length = q.length ∧ (adjust i n1i q n).2.length = n.length := by
  rw [adjust]
  split <;> simp

theorem adjust_frame (i : ℕ) (n1i : Fp) (q n : List Fp) {j : ℕ} (hj : j ≠ i) :
    fget (adjust i n1i q n).1 j = fget q j ∧ fget (adjust i n1i q n).2 j = fget n j := by
  rw [adjust]
  split
  · exact ⟨fget_set_ne (fun h => hj h.symm) _, fget_set_ne (fun h => hj h.symm) _⟩
  · exact ⟨rfl, rfl⟩

theorem relocPass_length (f : List Fp → ℕ → Fp) (i fuel : ℕ) (st : List Fp × List Fp) :
    (relocPass f i fuel st).1.length = st.1.length ∧
      (relocPass f i fuel st).2.length = st.2.length := by
  induction fuel generalizing i st with
  | zero => exact ⟨rfl, rfl⟩
  | succ fuel ih =>
      rw [relocPass]
      refine ⟨?_, ?_⟩
      · rw [(ih (i + 1) _).1, (adjust_length i _ st.1 st.2).1]
      · rw [(ih (i + 1) _).2, (adjust_length i _ st.1 st.2).2]

theorem relocPass_frame (f : List Fp → ℕ → Fp) (i fuel : ℕ) (st : List Fp × List Fp)
    {j : ℕ} (hj : j < i ∨ i + fuel ≤ j) :
    fget (relocPass f i fuel st).1 j = fget st.1 j ∧
      fget (relocPass f i fuel st).2 j = fget st.2 j := by
  induction fuel generalizing i st with
  | zero => exact ⟨rfl, rfl⟩
  | succ fuel ih =>
      rw [relocPass]
      have hji : j ≠ i := by omega
      have hrec := ih (i + 1) (adjust i (f st.2 i) st.1 st.2) (by omega)
      have hadj := adjust_frame i (f st.2 i) st.1 st.2 hji
      exact ⟨hrec.1.trans hadj.1, hrec.2.trans hadj.2⟩

@[simp] theorem length_setZeros (l : List Fp) (t : ℕ) :
    (setZeros l t).length = l.length := by
  induction t with
  | zero => rfl
  | succ t ih => simp [setZeros, ih]

@[simp] theorem length_setIota (l : List Fp) (t : ℕ) :
    (setIota l t).length = l.length := by
  induction t with
  | zero => rfl
  | succ t ih => simp [setIota, ih]

/-- The ascending marker-count seed `[1, 2, …, t]`. -/
def iotaFp (t : ℕ) : List Fp := (List.range t).map (fun j => Fp.finite ((j + 1 : ℕ) : ℚ))

theorem setZeros_eq (l : List Fp) (t : ℕ) (h : t ≤ l.length) :
    setZeros l t = List.replicate t (Fp.finite 0) ++ l.drop t := by
  induction t with
  | zero => simp [setZeros]
  | succ t ih =>
      have ht : t ≤ l.length := by omega
      rw [setZeros, ih ht, List.set_append, if_neg (by simp)]
      rw [List.length_replicate, Nat.sub_self, List.drop_eq_getElem_cons (by omega : t < l.length)]
      rw [List.replicate_succ', List.append_assoc]
      rfl

theorem iotaFp_succ (t : ℕ) :
    iotaFp (t + 1) = iotaFp t ++ [Fp.finite ((t + 1 : ℕ) : ℚ)] := by
  simp [iotaFp, List.range_succ]

theorem setIota_eq (l : List Fp) (t : ℕ) (h : t ≤ l.length) :
    setIota l t = iotaFp t ++ l.drop t := by
  induction t with
  | zero => simp [setIota, iotaFp]
  | succ t ih =>
      have ht : t ≤ l.length := by omega
      have hlen : (iotaFp t).length = t := by simp [iotaFp]
      rw [setIota, ih ht, List.set_append, if_neg (by rw [hlen]; omega), hlen, Nat.sub_self,
        List.drop_eq_getElem_cons (show t < l.length by omega), iotaFp_succ,
        List.append_assoc]
      rfl

theorem fget_iotaFp {t i : ℕ} (h : i < t) :
    fget (iotaFp t) i = Fp.finite ((i + 1 : ℕ) : ℚ) := by
  have hlen : i < (iotaFp t).length := by simp [iotaFp, h]
  rw [fget_eq_getElem hlen]
  simp [iotaFp]

theorem fget_replicate_zero {t i : ℕ} (h : i < t) :
    fget (List.replicate t (Fp.finite 0)) i = Fp.finite 0 := by
  have hlen : i < (List.replicate t (Fp.finite 0)).length := by simp [h]
  rw [fget_eq_getElem hlen]
  simp

@[simp] theorem Fp.lt_negInf_right (x : Fp) : Fp.lt x Fp.negInf = false := by
  cases x <;> rfl

/-- `l` holds finite values described by the ghost function `F`. -/
def RepF (l : List Fp) (F : ℕ → ℚ) : Prop :=
  ∀ i, i < l.length → fget l i = Fp.finite (F i)

/-- `l` holds finite integral values described by the ghost function `Z`
(the occupancy counts are integers stored as floats). -/
def RepZ (l : List Fp) (Z : ℕ → ℤ) : Prop :=
  ∀ i, i < l.length → fget l i = Fp.finite ((Z i : ℤ) : ℚ)

theorem linear_eval_pos (i : ℕ) (q n : List Fp) (F : ℕ → ℚ) (Z : ℕ → ℤ)
    (hUS : i + 1 ≤ Fp.usizeMax)
    (hqi : fget q i = Fp.finite (F i)) (hqip : fget q (i + 1) = Fp.finite (F (i + 1)))
    (hni : fget n i = Fp.finite ((Z i : ℤ) : ℚ))
    (hnip : fget n (i + 1) = Fp.finite ((Z (i + 1) : ℤ) : ℚ))
    (hd : ((Z (i + 1) : ℚ)) - ((Z i : ℚ)) ≠ 0) :
    linear i (Fp.finite 1) q n =
      Fp.finite (F i + 1 * (F (i + 1) - F i) / (((Z (i + 1) : ℚ)) - ((Z i : ℚ)))) := by
  have hidx : (Fp.add (Fp.finite ((i : ℕ) : ℚ)) (Fp.finite 1)).toUsize = i + 1 := by
    rw [Fp.add_finite, show ((i : ℕ) : ℚ) + 1 = ((i + 1 : ℕ) : ℚ) by push_cast; ring]
    exact Fp.toUsize_natCast (i + 1) hUS
  rw [linear, hidx, hqi, hqip, hni, hnip, Fp.sub_finite, Fp.sub_finite, Fp.mul_finite,
    Fp.div_finite _ hd, Fp.add_finite]

theorem linear_eval_neg (i : ℕ) (q n : List Fp) (F : ℕ → ℚ) (Z : ℕ → ℤ)
    (hi1 : 1 ≤ i) (hUS : i + 1 ≤ Fp.usizeMax)
    (hqi : fget q i = Fp.finite (F i)) (hqim : fget q (i - 1) = Fp.finite (F (i - 1)))
    (hni : fget n i = Fp.finite ((Z i : ℤ) : ℚ))
    (hnim : fget n (i - 1) = Fp.finite ((Z (i - 1) : ℤ) : ℚ))
    (hd : ((Z (i - 1) : ℚ)) - ((Z i : ℚ)) ≠ 0) :
    linear i (Fp.finite (-1)) q n =
      Fp.finite (F i + (-1) * (F (i - 1) - F i) / (((Z (i - 1) : ℚ)) - ((Z i : ℚ)))) := by
  have hsmall : i - 1 ≤ Fp.usizeMax := by omega
  have hidx : (Fp.add (Fp.finite ((i : ℕ) : ℚ)) (Fp.finite (-1))).toUsize = i - 1 := by
    rw [Fp.add_finite, show ((i : ℕ) : ℚ) + (-1) = ((i - 1 : ℕ) : ℚ) by
      rw [Nat.cast_sub hi1]; push_cast; ring]
    exact Fp.toUsize_natCast (i - 1) hsmall
  rw [linear, hidx, hqi, hqim, hni, hnim, Fp.sub_finite, Fp.sub_finite, Fp.mul_finite,
    Fp.div_finite _ hd, Fp.add_finite]

/-- Full characterisation of one relocation step at an interior marker with
a finite desired position: frame outside `i`, and at `i` either no change
(with the negative guard recorded false), a `+1` relocation, or a `-1`
relocation, each keeping the new value inside the neighbouring markers and
the new count strictly between the neighbouring counts. -/
theorem adjust_spec
    (m i : ℕ) (q n : List Fp) (F : ℕ → ℚ) (Z : ℕ → ℤ) (ci : ℚ)
    (hi1 : 1 ≤ i) (him : i + 1 < m) (hUS : i + 1 ≤ Fp.usizeMax)
    (hlq : q.length = m) (hln : n.length = m)
    (hF : RepF q F) (hZ : RepZ n Z)
    (hm1 : F (i - 1) ≤ F i) (hm2 : F i ≤ F (i + 1))
    (hs1 : Z (i - 1) < Z i) (hs2 : Z i < Z (i + 1)) :
    (adjust i (Fp.finite ci) q n).1.length = m ∧
    (adjust i (Fp.finite ci) q n).2.length = m ∧
    (∀ j, j ≠ i → fget (adjust i (Fp.finite ci) q n).1 j = fget q j) ∧
    (∀ j, j ≠ i → fget (adjust i (Fp.finite ci) q n).2 j = fget n j) ∧
    ∃ a z,
      fget (adjust i (Fp.finite ci) q n).1 i = Fp.finite a ∧
      fget (adjust i (Fp.finite ci) q n).2 i = Fp.finite ((z : ℤ) : ℚ) ∧
      F (i - 1) ≤ a ∧ a ≤ F (i + 1) ∧ Z (i - 1) < z ∧ z < Z (i + 1) ∧
      ((a = F i ∧ z = Z i ∧ ¬(ci - ((Z i : ℤ) : ℚ) ≤ -1 ∧ 2 ≤ Z i - Z (i - 1))) ∨
       (z = Z i + 1 ∧ 1 ≤ ci - ((Z i : ℤ) : ℚ) ∧ 2 ≤ Z (i + 1) - Z i) ∨
       (z = Z i - 1 ∧ ci - ((Z i : ℤ) : ℚ) ≤ -1 ∧ 2 ≤ Z i - Z (i - 1))) := by
  have hiq := hF i (by omega)
  have hiqp := hF (i + 1) (by omega)
  have hiqm := hF (i - 1) (by omega)
  have hin := hZ i (by omega)
  have hinp := hZ (i + 1) (by omega)
  have hinm := hZ (i - 1) (by omega)
  have hiq2 : i < q.length := by omega
  have hin2 : i < n.length := by omega
  have hncast : ((Z i : ℚ)) + 1 = (((Z i + 1 : ℤ)) : ℚ) := by push_cast; ring
  have hncast2 : ((Z i : ℚ)) + (-1) = (((Z i - 1 : ℤ)) : ℚ) := by push_cast; ring
  simp only [adjust, hin, hinp, hinm, hiq, hiqp, hiqm, Fp.sub_finite, Fp.le_finite,
    Fp.lt_finite, Fp.add_finite]
  by_cases hg1 : (1 : ℚ) ≤ ci - ((Z i : ℤ) : ℚ) ∧
      (1 : ℚ) < ((Z (i + 1) : ℤ) : ℚ) - ((Z i : ℤ) : ℚ)
  · -- positive relocation fires
    have hgapZ : 2 ≤ Z (i + 1) - Z i := by
      have h2 : (1 : ℤ) < Z (i + 1) - Z i := by exact_mod_cast hg1.2
      omega
    rw [if_pos (Bool.or_eq_true _ _ |>.mpr (Or.inl (Bool.and_eq_true _ _ |>.mpr
      ⟨decide_eq_true hg1.1, decide_eq_true hg1.2⟩))),
      if_pos (decide_eq_true (show (0 : ℚ) < ci - ((Z i : ℤ) : ℚ) by linarith [hg1.1]))]
    refine ⟨by simp [hlq], by simp [hln],
      fun j hj => fget_set_ne (Ne.symm hj) _, fun j hj => fget_set_ne (Ne.symm hj) _, ?_⟩
    by_cases hcommit : (Fp.lt (Fp.finite (F (i - 1))) (parabolic i (Fp.finite 1) q n)
        && Fp.lt (parabolic i (Fp.finite 1) q n) (Fp.finite (F (i + 1)))) = true
    · rw [if_pos hcommit]
      cases hP : parabolic i (Fp.finite 1) q n with
      | nan => rw [hP] at hcommit; simp at hcommit
      | posInf => rw [hP] at hcommit; simp at hcommit
      | negInf => rw [hP] at hcommit; simp at hcommit
      | finite a =>
          rw [hP] at hcommit
          simp only [Fp.lt_finite, Bool.and_eq_true, decide_eq_true_eq] at hcommit
          exact ⟨a, Z i + 1, by rw [fget_set_self hiq2],
            by rw [fget_set_self hin2, Fp.add_finite, hncast],
            le_of_lt hcommit.1, le_of_lt hcommit.2, by omega, by omega,
            Or.inr (Or.inl ⟨rfl, hg1.1, hgapZ⟩)⟩
    · rw [if_neg hcommit]
      have hd : ((Z (i + 1) : ℤ) : ℚ) - ((Z i : ℤ) : ℚ) ≠ 0 := by linarith [hg1.2]
      have hlin := linear_eval_pos i q n F Z hUS hiq hiqp hin hinp hd
      have hdiff : (0 : ℚ) ≤ F (i + 1) - F i := by linarith
      have hq1 : (0 : ℚ) ≤ (F (i + 1) - F i) / (((Z (i + 1) : ℤ) : ℚ) - ((Z i : ℤ) : ℚ)) :=
        div_nonneg hdiff (by linarith [hg1.2])
      have hq2 : (F (i + 1) - F i) / (((Z (i + 1) : ℤ) : ℚ) - ((Z i : ℤ) : ℚ)) ≤
          F (i + 1) - F i := div_le_self hdiff (by linarith [hg1.2])
      refine ⟨F i + 1 * (F (i + 1) - F i) / (((Z (i + 1) : ℤ) : ℚ) - ((Z i : ℤ) : ℚ)),
        Z i + 1, by rw [fget_set_self hiq2, hlin], by rw [fget_set_self hin2, Fp.add_finite, hncast],
        by rw [one_mul]; linarith, by rw [one_mul]; linarith, by omega, by omega,
        Or.inr (Or.inl ⟨rfl, hg1.1, hgapZ⟩)⟩
  · by_cases hg2 : ci - ((Z i : ℤ) : ℚ) ≤ -1 ∧
        ((Z (i - 1) : ℤ) : ℚ) - ((Z i : ℤ) : ℚ) < -1
    · -- negative relocation fires
      have hgapZ : 2 ≤ Z i - Z (i - 1) := by
        have h2 : Z (i - 1) - Z i < -1 := by exact_mod_cast hg2.2
        omega
      rw [if_pos (Bool.or_eq_true _ _ |>.mpr (Or.inr (Bool.and_eq_true _ _ |>.mpr
        ⟨decide_eq_true hg2.1, decide_eq_true hg2.2⟩))),
        if_neg (show ¬(decide ((0 : ℚ) < ci - ((Z i : ℤ) : ℚ)) = true) by
          simp only [decide_eq_true_eq]; push_neg; linarith [hg2.1])]
      refine ⟨by simp [hlq], by simp [hln],
        fun j hj => fget_set_ne (Ne.symm hj) _, fun j hj => fget_set_ne (Ne.symm hj) _, ?_⟩
      by_cases hcommit : (Fp.lt (Fp.finite (F (i - 1))) (parabolic i (Fp.finite (-1)) q n)
          && Fp.lt (parabolic i (Fp.finite (-1)) q n) (Fp.finite (F (i + 1)))) = true
      · rw [if_pos hcommit]
        cases hP : parabolic i (Fp.finite (-1)) q n with
        | nan => rw [hP] at hcommit; simp at hcommit
        | posInf => rw [hP] at hcommit; simp at hcommit
        | negInf => rw [hP] at hcommit; simp at hcommit
        | finite a =>
            rw [hP] at hcommit
            simp only [Fp.lt_finite, Bool.and_eq_true, decide_eq_true_eq] at hcommit
            exact ⟨a, Z i - 1, by rw [fget_set_self hiq2], by rw [fget_set_self hin2, Fp.add_finite, hncast2],
              le_of_lt hcommit.1, le_of_lt hcommit.2, by omega, by omega,
              Or.inr (Or.inr ⟨rfl, hg2.1, hgapZ⟩)⟩
      · rw [if_neg hcommit]
        have hΔm : ((Z (i - 1) : ℤ) : ℚ) - ((Z i : ℤ) : ℚ) ≤ -2 := by
          have h2 : ((Z (i - 1) - Z i : ℤ) : ℚ) ≤ ((-2 : ℤ) : ℚ) := by
            exact_mod_cast (by omega : Z (i - 1) - Z i ≤ -2)
          push_cast at h2
          linarith
        have hd : ((Z (i - 1) : ℤ) : ℚ) - ((Z i : ℤ) : ℚ) ≠ 0 := by linarith
        have hlin := linear_eval_neg i q n F Z hi1 hUS hiq hiqm hin hinm hd
        have hg : (0 : ℚ) ≤ F i - F (i - 1) := by linarith
        have hrw : (-1 : ℚ) * (F (i - 1) - F i) = F i - F (i - 1) := by ring
        have hopp : (F i - F (i - 1)) / (((Z (i - 1) : ℤ) : ℚ) - ((Z i : ℤ) : ℚ)) =
            -((F i - F (i - 1)) / (-(((Z (i - 1) : ℤ) : ℚ) - ((Z i : ℤ) : ℚ)))) := by
          rw [show (((Z (i - 1) : ℤ) : ℚ) - ((Z i : ℤ) : ℚ)) =
            -(-(((Z (i - 1) : ℤ) : ℚ) - ((Z i : ℤ) : ℚ))) by ring, div_neg, neg_neg]
        have h1 : (F i - F (i - 1)) / (-(((Z (i - 1) : ℤ) : ℚ) - ((Z i : ℤ) : ℚ))) ≤
            F i - F (i - 1) := div_le_self hg (by linarith)
        have h2 : (0 : ℚ) ≤ (F i - F (i - 1)) /
            (-(((Z (i - 1) : ℤ) : ℚ) - ((Z i : ℤ) : ℚ))) := div_nonneg hg (by linarith)
        refine ⟨F i + (-1) * (F (i - 1) - F i) / (((Z (i - 1) : ℤ) : ℚ) - ((Z i : ℤ) : ℚ)),
          Z i - 1, by rw [fget_set_self hiq2, hlin], by rw [fget_set_self hin2, Fp.add_finite, hncast2],
          ?_, ?_, by omega, by omega, Or.inr (Or.inr ⟨rfl, hg2.1, hgapZ⟩)⟩
        · rw [hrw, hopp]; linarith
        · rw [hrw, hopp]; linarith
    · -- guard is false: no relocation
      rw [if_neg (by
        simp only [Bool.or_eq_true, Bool.and_eq_true, decide_eq_true_eq]
        rintro (⟨u, v⟩ | ⟨u, v⟩)
        exacts [hg1 ⟨u, v⟩, hg2 ⟨u, v⟩])]
      refine ⟨hlq, hln, fun j _ => rfl, fun j _ => rfl, F i, Z i, hiq, hin, hm1, hm2,
        hs1, hs2, Or.inl ⟨rfl, rfl, ?_⟩⟩
      rintro ⟨u, v⟩
      apply hg2
      refine ⟨u, ?_⟩
      have h2 : ((Z (i - 1) - Z i : ℤ) : ℚ) ≤ ((-2 : ℤ) : ℚ) := by
        exact_mod_cast (by omega : Z (i - 1) - Z i ≤ -2)
      push_cast at h2
      linarith

/-- The full relocation pass over interior markers `[i, m-1)`, by induction
on the remaining fuel.  `Z0`/`F0` are the counts/values at the start of the
pass (after the count update), `c` the (constant during the pass) desired
positions, `k` the bucket index.  Hypotheses `hA`/`hB` encode the pending-
displacement invariant of the previous call; the conclusion re-establishes
it (`c j - Z2 j ≤ -1 → gap ≤ 1`), shows markers below `k` never lose a
count, and every count moves by at most one. -/
theorem relocPass_spec
    (m k : ℕ) (c : ℕ → ℚ) (n1f : List Fp → ℕ → Fp) (Z0 : ℕ → ℤ)
    (hk1 : 1 ≤ k) (hkm : k ≤ m - 1) (hmUS : m ≤ Fp.usizeMax)
    (hf : ∀ nl : List Fp, nl.length = m →
        fget nl (m - 1) = Fp.finite ((Z0 (m - 1) : ℤ) : ℚ) →
        ∀ j, 1 ≤ j → j + 1 < m → n1f nl j = Fp.finite (c j))
    (hA : ∀ j, 1 ≤ j → j + 1 < m → j < k →
        (c j - ((Z0 j : ℤ) : ℚ) ≤ -1 → Z0 j - Z0 (j - 1) ≤ 1))
    (hB : ∀ j, 1 ≤ j → j + 1 < m → k ≤ j →
        (c j - ((Z0 j : ℤ) : ℚ) ≤ -2 → Z0 j - Z0 (j - 1) - (if j = k then 1 else 0) ≤ 1)) :
    ∀ fuel i q n (F : ℕ → ℚ) (Z : ℕ → ℤ),
      i + fuel = m - 1 → 1 ≤ i →
      q.length = m → n.length = m →
      RepF q F → RepZ n Z →
      (∀ j, j + 1 < m → F j ≤ F (j + 1)) →
      (∀ j, j + 1 < m → Z j < Z (j + 1)) →
      (∀ j, j < m → i ≤ j → Z j = Z0 j) →
      Z 0 = Z0 0 →
      (∀ j, 1 ≤ j → j < i →
        ((c j - ((Z j : ℤ) : ℚ) ≤ -1 → Z j - Z (j - 1) ≤ 1) ∧
         (j < k → Z0 j ≤ Z j) ∧ Z j - Z0 j ≤ 1 ∧ Z0 j - Z j ≤ 1)) →
      ∃ F2 Z2,
        (relocPass n1f i fuel (q, n)).1.length = m ∧
        (relocPass n1f i fuel (q, n)).2.length = m ∧
        RepF (relocPass n1f i fuel (q, n)).1 F2 ∧
        RepZ (relocPass n1f i fuel (q, n)).2 Z2 ∧
        (∀ j, j + 1 < m → F2 j ≤ F2 (j + 1)) ∧
        (∀ j, j + 1 < m → Z2 j < Z2 (j + 1)) ∧
        Z2 0 = Z 0 ∧ Z2 (m - 1) = Z (m - 1) ∧
        (∀ j, 1 ≤ j → j + 1 < m →
          ((c j - ((Z2 j : ℤ) : ℚ) ≤ -1 → Z2 j - Z2 (j - 1) ≤ 1) ∧
           (j < k → Z0 j ≤ Z2 j) ∧ Z2 j - Z0 j ≤ 1 ∧ Z0 j - Z2 j ≤ 1)) := by
  intro fuel
  induction fuel with
  | zero =>
      intro i q n F Z hifuel hi1 hlq hln hF hZ hmono hstrict hfresh hz0 hdone
      exact ⟨F, Z, hlq, hln, hF, hZ, hmono, hstrict, rfl, rfl, by
        intro j hj1 hj2
        exact hdone j hj1 (by omega)⟩
  | succ fuel ih =>
      intro i q n F Z hifuel hi1 hlq hln hF hZ hmono hstrict hfresh hz0 hdone
      have him : i + 1 < m := by omega
      have hUS : i + 1 ≤ Fp.usizeMax := by omega
      have hlast : fget n (m - 1) = Fp.finite ((Z0 (m - 1) : ℤ) : ℚ) := by
        rw [hZ (m - 1) (by omega), hfresh (m - 1) (by omega) (by omega)]
      have hconv : n1f n i = Fp.finite (c i) := hf n hln hlast i hi1 him
      have hm1 : F (i - 1) ≤ F i := by
        have h := hmono (i - 1) (by omega)
        rwa [Nat.sub_add_cancel hi1] at h
      have hm2 : F i ≤ F (i + 1) := hmono i him
      have hs1 : Z (i - 1) < Z i := by
        have h := hstrict (i - 1) (by omega)
        rwa [Nat.sub_add_cancel hi1] at h
      have hs2 : Z i < Z (i + 1) := hstrict i him
      obtain ⟨hL1, hL2, hFr1, hFr2, a, z, hqa, hnz, hb1, hb2, hb3, hb4, hcase⟩ :=
        adjust_spec m i q n F Z (c i) hi1 him hUS hlq hln hF hZ hm1 hm2 hs1 hs2
      set r := adjust i (Fp.finite (c i)) q n with hr
      -- ghost functions after this step
      set F1 : ℕ → ℚ := Function.update F i a with hF1def
      set Z1 : ℕ → ℤ := Function.update Z i z with hZ1def
      have hF1 : RepF r.1 F1 := by
        intro j hj
        by_cases hji : j = i
        · subst hji
          rw [hqa, hF1def, Function.update_same]
        · rw [hFr1 j hji, hF1def, Function.update_noteq hji]
          exact hF j (by rw [hlq, ← hL1]; exact hj)
      have hZ1 : RepZ r.2 Z1 := by
        intro j hj
        by_cases hji : j = i
        · subst hji
          rw [hnz, hZ1def, Function.update_same]
        · rw [hFr2 j hji, hZ1def, Function.update_noteq hji]
          exact hZ j (by rw [hln, ← hL2]; exact hj)
      have hF1i : F1 i = a := Function.update_same i a F
      have hZ1i : Z1 i = z := Function.update_same i z Z
      have hF1ne : ∀ j, j ≠ i → F1 j = F j := fun j hj => Function.update_noteq hj a F
      have hZ1ne : ∀ j, j ≠ i → Z1 j = Z j := fun j hj => Function.update_noteq hj z Z
      have hmono1 : ∀ j, j + 1 < m → F1 j ≤ F1 (j + 1) := by
        intro j hj
        rcases lt_trichotomy (j + 1) i with h | h | h
        · rw [hF1ne j (by omega), hF1ne (j + 1) (by omega)]; exact hmono j hj
        · rw [hF1ne j (by omega), show j + 1 = i from h, hF1i,
            show j = i - 1 by omega]
          exact hb1
        · by_cases hji : j = i
          · rw [hji, hF1i, hF1ne (i + 1) (by omega)]; exact hb2
          · rw [hF1ne j (by omega), hF1ne (j + 1) (by omega)]; exact hmono j hj
      have hstrict1 : ∀ j, j + 1 < m → Z1 j < Z1 (j + 1) := by
        intro j hj
        rcases lt_trichotomy (j + 1) i with h | h | h
        · rw [hZ1ne j (by omega), hZ1ne (j + 1) (by omega)]; exact hstrict j hj
        · rw [hZ1ne j (by omega), show j + 1 = i from h, hZ1i,
            show j = i - 1 by omega]
          exact hb3
        · by_cases hji : j = i
          · rw [hji, hZ1i, hZ1ne (i + 1) (by omega)]; exact hb4
          · rw [hZ1ne j (by omega), hZ1ne (j + 1) (by omega)]; exact hstrict j hj
      have hZieq : Z i = Z0 i := hfresh i (by omega) (by omega)
      -- the value of Z at i - 1 never went below its pass-start value when i - 1 < k,
      -- and never fell by more than one in any case
      have hprev_ge : i - 1 < k → Z0 (i - 1) ≤ Z (i - 1) := by
        intro hik
        rcases Nat.eq_zero_or_pos (i - 1) with h0 | h0
        · rw [h0, hz0]
        · exact (hdone (i - 1) h0 (by omega)).2.1 hik
      have hprev_bnd : Z0 (i - 1) - Z (i - 1) ≤ 1 := by
        rcases Nat.eq_zero_or_pos (i - 1) with h0 | h0
        · rw [h0, hz0]; omega
        · exact (hdone (i - 1) h0 (by omega)).2.2.2
      -- the new processed fact at marker i
      have hstep : (c i - ((Z1 i : ℤ) : ℚ) ≤ -1 → Z1 i - Z1 (i - 1) ≤ 1) ∧
          (i < k → Z0 i ≤ Z1 i) ∧ Z1 i - Z0 i ≤ 1 ∧ Z0 i - Z1 i ≤ 1 := by
        rw [hZ1i, hZ1ne (i - 1) (by omega)]
        rcases hcase with ⟨_, hz, hng⟩ | ⟨hz, hge, hgap⟩ | ⟨hz, hle2, hgap⟩
        · -- no relocation
          subst hz
          refine ⟨?_, fun _ => by omega, by omega, by omega⟩
          intro hd
          by_contra hgt
          exact hng ⟨hd, by omega⟩
        · -- +1 relocation
          subst hz
          refine ⟨?_, fun _ => by omega, by omega, by omega⟩
          intro hd
          exfalso
          have : ((Z i : ℚ)) + 1 = (((Z i + 1 : ℤ)) : ℚ) := by push_cast; ring
          rw [← this] at hd
          linarith
        · -- -1 relocation
          subst hz
          have hcast : (((Z i - 1 : ℤ)) : ℚ) = ((Z i : ℚ)) - 1 := by push_cast; ring
          by_cases hik : i < k
          · -- impossible: the cascade argument
            exfalso
            have hA2 := hA i hi1 him hik (by rw [← hZieq]; exact hle2)
            have := hprev_ge (by omega)
            omega
          · push_neg at hik
            refine ⟨?_, fun h => absurd h (by omega), by omega, by omega⟩
            intro hd
            rw [hcast] at hd
            have hd2 : c i - ((Z0 i : ℤ) : ℚ) ≤ -2 := by rw [← hZieq]; linarith
            have hB2 := hB i hi1 him hik hd2
            by_cases hieqk : i = k
            · rw [if_pos hieqk] at hB2
              have := hprev_ge (by omega)
              omega
            · rw [if_neg hieqk] at hB2
              have := hprev_bnd
              omega
      -- hypotheses for the recursive call
      have hfresh1 : ∀ j, j < m → i + 1 ≤ j → Z1 j = Z0 j := by
        intro j hj hij
        rw [hZ1ne j (by omega)]
        exact hfresh j hj (by omega)
      have hz01 : Z1 0 = Z0 0 := by rw [hZ1ne 0 (by omega)]; exact hz0
      have hdone1 : ∀ j, 1 ≤ j → j < i + 1 →
          ((c j - ((Z1 j : ℤ) : ℚ) ≤ -1 → Z1 j - Z1 (j - 1) ≤ 1) ∧
           (j < k → Z0 j ≤ Z1 j) ∧ Z1 j - Z0 j ≤ 1 ∧ Z0 j - Z1 j ≤ 1) := by
        intro j hj1 hj2
        by_cases hji : j = i
        · subst hji; exact hstep
        · have hjlt : j < i := by omega
          rw [hZ1ne j (by omega), hZ1ne (j - 1) (by omega)]
          exact hdone j hj1 hjlt
      have hrec := ih (i + 1) r.1 r.2 F1 Z1 (by omega) (by omega)
        (by rw [hL1]) (by rw [hL2]) hF1 hZ1 hmono1 hstrict1 hfresh1 hz01 hdone1
      obtain ⟨F2, Z2, g1, g2, g3, g4, g5, g6, g7, g8, g9⟩ := hrec
      refine ⟨F2, Z2, ?_, ?_, ?_, ?_, g5, g6, ?_, ?_, g9⟩
      · rw [show relocPass n1f i (fuel + 1) (q, n) =
          relocPass n1f (i + 1) fuel (r.1, r.2) by rw [relocPass, hconv]]
        exact g1
      · rw [show relocPass n1f i (fuel + 1) (q, n) =
          relocPass n1f (i + 1) fuel (r.1, r.2) by rw [relocPass, hconv]]
        exact g2
      · rw [show relocPass n1f i (fuel + 1) (q, n) =
          relocPass n1f (i + 1) fuel (r.1, r.2) by rw [relocPass, hconv]]
        exact g3
      · rw [show relocPass n1f i (fuel + 1) (q, n) =
          relocPass n1f (i + 1) fuel (r.1, r.2) by rw [relocPass, hconv]]
        exact g4
      · rw [g7, hZ1ne 0 (by omega)]
      · rw [g8, hZ1ne (m - 1) (by omega)]

theorem Fp.eq_finite_toQ {x : Fp} (h : x.isFinite = true) : x = Fp.finite x.toQ := by
  cases x <;> simp_all [Fp.isFinite, Fp.toQ]

theorem Fp.isNan_false_of_isFinite {x : Fp} (h : x.isFinite = true) : x.isNan = false := by
  cases x <;> simp_all [Fp.isFinite, Fp.isNan]

theorem allFinite_of_index {l : List Fp}
    (h : ∀ i, i < l.length → (fget l i).isFinite = true) :
    ∀ v ∈ l, v.isFinite = true := by
  intro v hv
  obtain ⟨i, hi, rfl⟩ := List.mem_iff_getElem.mp hv
  rw [← fget_eq_getElem hi]
  exact h i hi

/-- Bucket location of the quantile estimator on a finite input over a
monotone finite marker array: `k` lands in `[1, 4]` and monotonicity is
preserved (the two end replacements only shrink/extend the range). -/
theorem Quantile.locate_spec (q : List Fp) (xv : ℚ) (F : ℕ → ℚ)
    (hlq : q.length = 5) (hF : RepF q F)
    (hmono : ∀ i, i + 1 < 5 → F i ≤ F (i + 1)) :
    ∃ F1, (Quantile.locate q (Fp.finite xv)).1.length = 5 ∧
      RepF (Quantile.locate q (Fp.finite xv)).1 F1 ∧
      (∀ i, i + 1 < 5 → F1 i ≤ F1 (i + 1)) ∧
      1 ≤ (Quantile.locate q (Fp.finite xv)).2 ∧
      (Quantile.locate q (Fp.finite xv)).2 ≤ 4 := by
  have h0 := hF 0 (by omega)
  have h1 := hF 1 (by omega)
  have h2 := hF 2 (by omega)
  have h3 := hF 3 (by omega)
  have h4 := hF 4 (by omega)
  have hq0 : (0 : ℕ) < q.length := by omega
  have hq4 : (4 : ℕ) < q.length := by omega
  simp only [Quantile.locate, h0, h1, h2, h3, h4, Fp.lt_finite, Fp.le_finite]
  by_cases c1 : xv < F 0
  · rw [if_pos (decide_eq_true c1)]
    refine ⟨Function.update F 0 xv, by simp [hlq], ?_, ?_, by omega, by omega⟩
    · intro j hj
      by_cases hj0 : j = 0
      · subst hj0
        rw [fget_set_self hq0, Function.update_same]
      · rw [fget_set_ne (fun e => hj0 e.symm), Function.update_noteq hj0]
        exact hF j (by simpa using hj)
    · intro j hj
      by_cases hj0 : j = 0
      · subst hj0
        rw [Function.update_same, Function.update_noteq (by omega)]
        exact le_of_lt (lt_of_lt_of_le c1 (hmono 0 (by omega)))
      · rw [Function.update_noteq hj0, Function.update_noteq (by omega)]
        exact hmono j hj
  · rw [if_neg (show ¬(decide (xv < F 0) = true) by
      simp only [decide_eq_true_eq]; exact c1)]
    have e0 : F 0 ≤ xv := not_lt.mp c1
    by_cases c2 : F 0 ≤ xv ∧ xv < F 1
    · rw [if_pos (Bool.and_eq_true _ _ |>.mpr ⟨decide_eq_true c2.1, decide_eq_true c2.2⟩)]
      exact ⟨F, hlq, hF, hmono, by omega, by omega⟩
    · rw [if_neg (show ¬((decide (F 0 ≤ xv) && decide (xv < F 1)) = true) by
        simp only [Bool.and_eq_true, decide_eq_true_eq]; exact c2)]
      have e1 : F 1 ≤ xv := by
        by_contra h
        push_neg at h
        exact c2 ⟨e0, h⟩
      by_cases c3 : F 1 ≤ xv ∧ xv < F 2
      · rw [if_pos (Bool.and_eq_true _ _ |>.mpr ⟨decide_eq_true c3.1, decide_eq_true c3.2⟩)]
        exact ⟨F, hlq, hF, hmono, by omega, by omega⟩
      · rw [if_neg (show ¬((decide (F 1 ≤ xv) && decide (xv < F 2)) = true) by
          simp only [Bool.and_eq_true, decide_eq_true_eq]; exact c3)]
        have e2 : F 2 ≤ xv := by
          by_contra h
          push_neg at h
          exact c3 ⟨e1, h⟩
        by_cases c4 : F 2 ≤ xv ∧ xv < F 3
        · rw [if_pos (Bool.and_eq_true _ _ |>.mpr ⟨decide_eq_true c4.1, decide_eq_true c4.2⟩)]
          exact ⟨F, hlq, hF, hmono, by omega, by omega⟩
        · rw [if_neg (show ¬((decide (F 2 ≤ xv) && decide (xv < F 3)) = true) by
            simp only [Bool.and_eq_true, decide_eq_true_eq]; exact c4)]
          have e3 : F 3 ≤ xv := by
            by_contra h
            push_neg at h
            exact c4 ⟨e2, h⟩
          by_cases c5 : F 3 ≤ xv ∧ xv ≤ F 4
          · rw [if_pos (Bool.and_eq_true _ _ |>.mpr ⟨decide_eq_true c5.1, decide_eq_true c5.2⟩)]
            exact ⟨F, hlq, hF, hmono, by omega, by omega⟩
          · rw [if_neg (show ¬((decide (F 3 ≤ xv) && decide (xv ≤ F 4)) = true) by
              simp only [Bool.and_eq_true, decide_eq_true_eq]; exact c5)]
            have e4 : F 4 < xv := by
              by_contra h
              push_neg at h
              exact c5 ⟨e3, h⟩
            rw [if_pos (decide_eq_true e4)]
            refine ⟨Function.update F 4 xv, by simp [hlq], ?_, ?_, by omega, by omega⟩
            · intro j hj
              by_cases hj4 : j = 4
              · subst hj4
                rw [fget_set_self hq4, Function.update_same]
              · rw [fget_set_ne (fun e => hj4 e.symm), Function.update_noteq hj4]
                exact hF j (by simpa using hj)
            · intro j hj
              by_cases hj4 : j + 1 = 4
              · rw [Function.update_noteq (by omega), hj4, Function.update_same]
                have : j = 3 := by omega
                subst this
                exact e3
              · rw [Function.update_noteq (by omega), Function.update_noteq (by omega)]
                exact hmono j hj

/-- Master invariant for the quantile estimator after `tot` accepted finite
observations: array lengths, a valid finite parameter, bookkeeping of the
fill counter, finiteness of the markers, monotonicity once ready,
integer strictly-increasing counts with `n[0] = 1` and `n[4]` tracking the
total, the fill-phase seed, and the pending-displacement invariant of the
stored desired positions. -/
def QInv (s : Quantile) (tot : ℕ) : Prop :=
  s.q.length = 5 ∧ s.n.length = 5 ∧ s.n1.length = 5 ∧
  s.cnt = 5 - min 5 tot ∧
  (∃ pr : ℚ, s.p = Fp.finite pr ∧ 0 < pr ∧ pr < 1) ∧
  (∀ i, i < 5 → (fget s.q i).isFinite = true) ∧
  (s.cnt = 0 → ∀ i, i + 1 < 5 → Fp.le (fget s.q i) (fget s.q (i + 1)) = true) ∧
  ∃ (Z : ℕ → ℤ) (R : ℕ → ℚ),
    RepZ s.n Z ∧
    (∀ i, i + 1 < 5 → Z i < Z (i + 1)) ∧
    Z 0 = 1 ∧ ((Z 4 : ℤ)) = ((max 5 tot : ℕ) : ℤ) ∧
    (0 < s.cnt → ∀ i, i < 5 → Z i = i + 1) ∧
    (∀ i, 1 ≤ i → i ≤ 3 → fget s.n1 i = Fp.finite (R i)) ∧
    (s.cnt = 0 → ∀ i, 1 ≤ i → i ≤ 3 →
      (R i - ((Z i : ℤ) : ℚ) ≤ -1 → Z i - Z (i - 1) ≤ 1))

/-- The state produced by `Quantile::new` (equivalently by `clear` on any
state with the same parameter). -/
def Quantile.init (p : Fp) : Quantile :=
  Quantile.clear { q := [], n := [], n1 := [], p := p, cnt := 0 }

theorem Quantile.new_eq_init {p : Fp}
    (h : (Fp.le p (Fp.finite 0) || Fp.le (Fp.finite 1) p) = false) :
    Quantile.new p = Except.ok (Quantile.init p) := by
  rw [Quantile.new, if_neg (by rw [h]; simp)]
  rfl

theorem QInv_init (pr : ℚ) (h1 : 0 < pr) (h2 : pr < 1) :
    QInv (Quantile.init (Fp.finite pr)) 0 := by
  refine ⟨rfl, rfl, rfl, rfl, ⟨pr, rfl, h1, h2⟩, ?_, ?_, ?_⟩
  · intro i hi
    interval_cases i <;> rfl
  · intro h
    exact absurd h (by simp [Quantile.init, Quantile.clear])
  · refine ⟨fun i => (i : ℤ) + 1,
      fun i => if i = 1 then 1 + 2 * pr else if i = 2 then 1 + 4 * pr else 3 + 2 * pr,
      ?_, ?_, by norm_num, by norm_num, ?_, ?_, ?_⟩
    · intro i hi
      have hi5 : i < 5 := by simpa [Quantile.init, Quantile.clear] using hi
      interval_cases i <;> norm_num [fget, Quantile.init, Quantile.clear, List.getD]
    · intro i _
      simp only []
      push_cast
      omega
    · intro _ i hi
      interval_cases i <;> norm_num
    · intro i hi1 hi3
      interval_cases i <;> norm_num [fget, Quantile.init, Quantile.clear, List.getD] <;> ring
    · intro h
      exact absurd h (by simp [Quantile.init, Quantile.clear])

/-! ### Branch characterisations of `Quantile::add` -/

theorem Quantile.add_nan_fill (s : Quantile) (hc : s.cnt ≠ 0) :
    s.add Fp.nan = (Fp.nan, s) := by
  rw [Quantile.add, if_pos (by simp), if_neg hc]

theorem Quantile.add_nan_ready (s : Quantile) (hc : s.cnt = 0) :
    s.add Fp.nan = (fget s.q 2, s) := by
  rw [Quantile.add, if_pos (by simp), if_pos hc]

theorem Quantile.add_fill_eq (s : Quantile) (x : Fp) (hnan : x.isNan = false)
    (hc : 1 < s.cnt) :
    s.add x = (Fp.nan, { s with q := s.q.set (s.cnt - 1) x, cnt := s.cnt - 1 }) := by
  rw [Quantile.add, if_neg (by rw [hnan]; simp), if_pos (by omega), if_neg (by omega)]

theorem Quantile.add_complete_eq (s : Quantile) (x : Fp) (hnan : x.isNan = false)
    (hc : s.cnt = 1) :
    s.add x = (fget (sortFp (s.q.set 0 x)) 2,
      { s with q := sortFp (s.q.set 0 x), cnt := 0 }) := by
  rw [Quantile.add, if_neg (by rw [hnan]; simp), if_pos (by omega), hc]
  rfl

theorem Quantile.add_steady_eq (s : Quantile) (x : Fp) (hnan : x.isNan = false)
    (hc : s.cnt = 0) :
    s.add x = (fget (relocPass (fun _ i => fget (Quantile.bumpN1 s) i) 1 3
        ((Quantile.locate s.q x).1, bumpFrom (Quantile.locate s.q x).2 s.n)).1 2,
      { s with
        q := (relocPass (fun _ i => fget (Quantile.bumpN1 s) i) 1 3
          ((Quantile.locate s.q x).1, bumpFrom (Quantile.locate s.q x).2 s.n)).1
        n := (relocPass (fun _ i => fget (Quantile.bumpN1 s) i) 1 3
          ((Quantile.locate s.q x).1, bumpFrom (Quantile.locate s.q x).2 s.n)).2
        n1 := Quantile.bumpN1 s
        cnt := 0 }) := by
  rw [Quantile.add, if_neg (by rw [hnan]; simp), if_neg (by omega)]

/-- One accepted finite observation preserves the master invariant, and no
occupancy count ever drops from one call to the next. -/
theorem QInv_add (s : Quantile) (tot : ℕ) (xv : ℚ) (h : QInv s tot) :
    QInv (s.add (Fp.finite xv)).2 (tot + 1) ∧
    ∀ i, i < 5 → Fp.le (fget s.n i) (fget (s.add (Fp.finite xv)).2.n i) = true := by
  obtain ⟨hlq, hln, hln1, hcnt, ⟨pr, hp, hpr1, hpr2⟩, hfin, hmono, Z, R, hZ, hstrict,
    hZ0, hZ4, hfill, hR, hsinv⟩ := h
  have hcnt5 : s.cnt ≤ 5 := by omega
  have hself : ∀ i, i < 5 → Fp.le (fget s.n i) (fget s.n i) = true := by
    intro i hi
    rw [hZ i (by omega)]
    simp
  rcases Nat.lt_or_ge 1 s.cnt with hc | hc
  · -- fill step that does not complete the fill
    rw [Quantile.add_fill_eq s _ (by simp) hc]
    refine ⟨⟨by simp [hlq], hln, hln1, by simp; omega, ⟨pr, hp, hpr1, hpr2⟩, ?_, ?_,
      Z, R, hZ, hstrict, hZ0, by push_cast at hZ4 ⊢; omega, ?_, hR, ?_⟩, ?_⟩
    · intro i hi
      by_cases hic : i = s.cnt - 1
      · subst hic
        rw [fget_set_self (by omega)]
        rfl
      · rw [fget_set_ne (fun e => hic e.symm)]
        exact hfin i hi
    · intro h0
      simp at h0
      omega
    · intro _ i hi
      exact hfill (by omega) i hi
    · intro h0
      simp at h0
      omega
    · intro i hi
      exact hself i hi
  · rcases (by omega : s.cnt = 0 ∨ s.cnt = 1) with hc0 | hc1
    · -- steady state
      rw [Quantile.add_steady_eq s _ (by simp) hc0]
      have htot5 : 5 ≤ tot := by omega
      have hFrep : RepF s.q (fun i => (fget s.q i).toQ) :=
        fun i hi => Fp.eq_finite_toQ (hfin i (by omega))
      have hFmono : ∀ i, i + 1 < 5 → (fget s.q i).toQ ≤ (fget s.q (i + 1)).toQ := by
        intro i hi
        have hcomp := hmono hc0 i hi
        rw [Fp.eq_finite_toQ (hfin i (by omega)),
          Fp.eq_finite_toQ (hfin (i + 1) (by omega))] at hcomp
        exact Fp.le_iff_of_finite.mp hcomp
      obtain ⟨F1, hl1, hF1, hF1mono, hk1, hk4⟩ :=
        Quantile.locate_spec s.q xv (fun i => (fget s.q i).toQ) hlq hFrep hFmono
      set k := (Quantile.locate s.q (Fp.finite xv)).2 with hkdef
      set Zb : ℕ → ℤ := fun i => if k ≤ i then Z i + 1 else Z i with hZbdef
      have hZbk : ∀ i, k ≤ i → Zb i = Z i + 1 := by
        intro i hi
        rw [hZbdef]
        simp [hi]
      have hZbn : ∀ i, i < k → Zb i = Z i := by
        intro i hi
        rw [hZbdef]
        simp [Nat.not_le.mpr hi]
      have hZb : RepZ (bumpFrom k s.n) Zb := by
        intro i hi
        rw [length_bumpFrom] at hi
        rw [fget_bumpFrom k s.n i hi, hZ i hi]
        by_cases hki : k ≤ i
        · rw [if_pos hki, Fp.add_finite, hZbk i hki]
          congr 1
          push_cast
          ring
        · rw [if_neg hki, hZbn i (by omega)]
      have hZbstrict : ∀ i, i + 1 < 5 → Zb i < Zb (i + 1) := by
        intro i hi
        have := hstrict i hi
        by_cases h1 : k ≤ i
        · rw [hZbk i h1, hZbk (i + 1) (by omega)]; omega
        · by_cases h2 : k ≤ i + 1
          · rw [hZbn i (by omega), hZbk (i + 1) h2]; omega
          · rw [hZbn i (by omega), hZbn (i + 1) (by omega)]; omega
      set R1 : ℕ → ℚ :=
        fun j => R j + (if j = 1 then pr / 2 else if j = 2 then pr else (1 + pr) / 2)
        with hR1def
      have hR1v : ∀ j, R1 j =
          R j + (if j = 1 then pr / 2 else if j = 2 then pr else (1 + pr) / 2) :=
        fun j => rfl
      have hincpos : ∀ j, 0 ≤ (if j = 1 then pr / 2 else if j = 2 then pr else (1 + pr) / 2) := by
        intro j
        split_ifs <;> linarith
      have hn1len : (Quantile.bumpN1 s).length = 5 := by
        simp [Quantile.bumpN1, hln1]
      have hR1 : ∀ i, 1 ≤ i → i ≤ 3 → fget (Quantile.bumpN1 s) i = Fp.finite (R1 i) := by
        intro i hi1 hi3
        interval_cases i
        · rw [Quantile.bumpN1, fget_set_ne (by omega), fget_set_ne (by omega),
            fget_set_ne (by omega), fget_set_self (by simp [hln1]),
            hR 1 (by omega) (by omega), hp, Fp.div_finite pr (by norm_num), Fp.add_finite]
          rw [hR1v]
          norm_num
        · rw [Quantile.bumpN1, fget_set_ne (by omega), fget_set_ne (by omega),
            fget_set_self (by simp [hln1]), hR 2 (by omega) (by omega), hp, Fp.add_finite]
          rw [hR1v]
          norm_num
        · rw [Quantile.bumpN1, fget_set_ne (by omega),
            fget_set_self (by simp [hln1]), hR 3 (by omega) (by omega), hp,
            Fp.add_finite, Fp.div_finite _ (by norm_num : (2 : ℚ) ≠ 0), Fp.add_finite]
          rw [hR1v]
          norm_num
      have hf : ∀ nl : List Fp, nl.length = 5 →
          fget nl (5 - 1) = Fp.finite ((Zb (5 - 1) : ℤ) : ℚ) →
          ∀ j, 1 ≤ j → j + 1 < 5 →
          (fun _ i => fget (Quantile.bumpN1 s) i) nl j = Fp.finite (R1 j) := by
        intro nl _ _ j hj1 hj4
        exact hR1 j hj1 (by omega)
      have hA : ∀ j, 1 ≤ j → j + 1 < 5 → j < k →
          (R1 j - ((Zb j : ℤ) : ℚ) ≤ -1 → Zb j - Zb (j - 1) ≤ 1) := by
        intro j hj1 hj4 hjk hd
        rw [hZbn j hjk] at hd
        have hRd : R j - ((Z j : ℤ) : ℚ) ≤ -1 := by
          have := hincpos j
          rw [hR1v] at hd
          linarith
        have hgap := hsinv hc0 j hj1 (by omega) hRd
        rw [hZbn j hjk, hZbn (j - 1) (by omega)]
        exact hgap
      have hB : ∀ j, 1 ≤ j → j + 1 < 5 → k ≤ j →
          (R1 j - ((Zb j : ℤ) : ℚ) ≤ -2 → Zb j - Zb (j - 1) - (if j = k then 1 else 0) ≤ 1) := by
        intro j hj1 hj4 hkj hd
        rw [hZbk j hkj] at hd
        have hRd : R j - ((Z j : ℤ) : ℚ) ≤ -1 := by
          have := hincpos j
          rw [hR1v] at hd
          push_cast at hd
          linarith
        have hgap := hsinv hc0 j hj1 (by omega) hRd
        rw [hZbk j hkj]
        by_cases hjek : j = k
        · rw [if_pos hjek, hZbn (j - 1) (by omega)]
          omega
        · rw [if_neg hjek, hZbk (j - 1) (by omega)]
          omega
      have hpass := relocPass_spec 5 k R1 (fun _ i => fget (Quantile.bumpN1 s) i) Zb
        hk1 (by omega) (by norm_num [Fp.usizeMax])
        hf hA hB 3 1 (Quantile.locate s.q (Fp.finite xv)).1 (bumpFrom k s.n)
        F1 Zb (by norm_num) (by norm_num) hl1 (by simp [hln])
        hF1 hZb hF1mono hZbstrict (fun j _ _ => rfl) rfl
        (fun j hj1 hj0 => absurd hj0 (by omega))
      obtain ⟨F2, Z2, g1, g2, g3, g4, g5, g6, g7, g8, g9⟩ := hpass
      refine ⟨⟨g1, g2, hn1len, by show (0 : ℕ) = 5 - min 5 (tot + 1); omega,
        ⟨pr, hp, hpr1, hpr2⟩, ?_, ?_,
        Z2, R1, g4, g6, ?_, ?_, ?_, hR1, ?_⟩, ?_⟩
      · intro i hi
        rw [g3 i (by rw [g1]; omega)]
        rfl
      · intro _ i hi
        rw [g3 i (by rw [g1]; omega), g3 (i + 1) (by rw [g1]; omega)]
        exact Fp.le_iff_of_finite.mpr (g5 i hi)
      · rw [g7, hZbn 0 (by omega), hZ0]
      · rw [g8, hZbk 4 (by omega)]
        push_cast at hZ4 ⊢
        omega
      · intro h0
        simp at h0
      · intro _ i hi1 hi3
        exact (g9 i hi1 (by omega)).1
      · intro i hi
        rw [hZ i (by omega), g4 i (by rw [g2]; omega), Fp.le_finite]
        have hgrow : Z i ≤ Z2 i := by
          rcases Nat.eq_zero_or_pos i with h0 | h0
          · subst h0
            rw [g7, hZbn 0 (by omega)]
          · by_cases hi4 : i = 4
            · subst hi4
              rw [g8, hZbk 4 (by omega)]
              omega
            · have hfacts := g9 i (by omega) (by omega)
              by_cases hik : i < k
              · have := hfacts.2.1 hik
                rw [hZbn i hik] at this
                omega
              · have := hfacts.2.2.2
                rw [hZbk i (by omega)] at this
                omega
        simp
        exact_mod_cast hgrow
    · -- the observation that completes the fill
      rw [Quantile.add_complete_eq s _ (by simp) hc1]
      have htot4 : tot = 4 := by omega
      have hq2fin : ∀ i, i < (s.q.set 0 (Fp.finite xv)).length →
          (fget (s.q.set 0 (Fp.finite xv)) i).isFinite = true := by
        intro i hi
        rw [List.length_set] at hi
        by_cases hi0 : i = 0
        · subst hi0
          rw [fget_set_self (by omega)]
          rfl
        · rw [fget_set_ne (fun e => hi0 e.symm)]
          exact hfin i (by omega)
      have hmem := allFinite_of_index hq2fin
      have hnanfree : ∀ v ∈ s.q.set 0 (Fp.finite xv), v.isNan = false :=
        fun v hv => Fp.isNan_false_of_isFinite (hmem v hv)
      have hsortlen : (sortFp (s.q.set 0 (Fp.finite xv))).length = 5 := by
        simp [hlq]
      refine ⟨⟨hsortlen, hln, hln1, by simp; omega, ⟨pr, hp, hpr1, hpr2⟩, ?_, ?_,
        Z, R, hZ, hstrict, hZ0, by push_cast at hZ4 ⊢; omega, ?_, hR, ?_⟩, ?_⟩
      · intro i hi
        have hil : i < (sortFp (s.q.set 0 (Fp.finite xv))).length := by omega
        exact sortFp_isFinite hmem _ (fget_mem hil)
      · intro _ i hi
        exact sortFp_mono hnanfree i (by omega)
      · intro h0
        simp at h0
      · intro _ i hi1 hi3 _
        have hzi := hfill (by omega) i (by omega)
        have hzim := hfill (by omega) (i - 1) (by omega)
        omega
      · intro i hi
        exact hself i hi

theorem runQ_cons (s : Quantile) (x : Fp) (xs : List Fp) :
    runQ s (x :: xs) = runQ (s.add x).2 xs := rfl

theorem runQ_append_one (s : Quantile) (xs : List Fp) (x : Fp) :
    runQ s (xs ++ [x]) = ((runQ s xs).add x).2 := by
  simp [runQ, List.foldl_append]

theorem QInv_run (s : Quantile) (tot : ℕ) (xs : List Fp) (h : QInv s tot)
    (hxs : ∀ x ∈ xs, x.isFinite = true) :
    QInv (runQ s xs) (tot + xs.length) := by
  induction xs generalizing s tot with
  | nil => simpa [runQ] using h
  | cons x rest ih =>
      obtain ⟨xv, rfl⟩ := Fp.isFinite_iff.mp (hxs x (by simp))
      have hstep := QInv_add s tot xv h
      have hrec := ih (s.add (Fp.finite xv)).2 (tot + 1) hstep.1
        (fun y hy => hxs y (by simp [hy]))
      rw [runQ_cons, show tot + (Fp.finite xv :: rest).length = tot + 1 + rest.length by
        simp [List.length_cons]; omega]
      exact hrec

theorem Quantile.new_ok_finite {p : Fp} {s0 : Quantile}
    (hfin : p.isFinite = true) (hok : Quantile.new p = Except.ok s0) :
    ∃ pr : ℚ, p = Fp.finite pr ∧ 0 < pr ∧ pr < 1 ∧ s0 = Quantile.init p := by
  obtain ⟨pr, rfl⟩ := Fp.isFinite_iff.mp hfin
  rw [Quantile.new] at hok
  by_cases hcond : (Fp.le (Fp.finite pr) (Fp.finite 0)
      || Fp.le (Fp.finite 1) (Fp.finite pr)) = true
  · rw [if_pos hcond] at hok
    exact absurd hok (by simp)
  · rw [if_neg hcond] at hok
    simp only [Bool.or_eq_true, Fp.le_finite, decide_eq_true_eq, not_or] at hcond
    refine ⟨pr, rfl, by linarith [not_le.mp hcond.1], by linarith [not_le.mp hcond.2], ?_⟩
    have := Except.ok.inj hok
    rw [← this]
    rfl

/-- Any state reached from a freshly constructed quantile estimator with a
finite parameter by feeding finite observations satisfies the invariant. -/
theorem QInv_reach {p : Fp} {s0 : Quantile} (xs : List Fp)
    (hfin : p.isFinite = true) (hok : Quantile.new p = Except.ok s0)
    (hxs : ∀ x ∈ xs, x.isFinite = true) :
    QInv (runQ s0 xs) xs.length := by
  obtain ⟨pr, rfl, h1, h2, rfl⟩ := Quantile.new_ok_finite hfin hok
  have := QInv_run _ 0 xs (QInv_init pr h1 h2) hxs
  simpa using this

/-- The interior scan: if it reports no bucket, `x` lies at or above the
last boundary scanned; otherwise it reports a bucket index in range. -/
theorem scanBucket_spec (q : List Fp) (xv : ℚ) (F : ℕ → ℚ) (m : ℕ)
    (hF : RepF q F) (hlq : q.length = m) :
    ∀ r i, i + r + 1 ≤ m → F i ≤ xv →
      (scanBucket q (Fp.finite xv) i r = 0 → F (i + r) ≤ xv) ∧
      (scanBucket q (Fp.finite xv) i r ≠ 0 →
        i + 1 ≤ scanBucket q (Fp.finite xv) i r ∧ scanBucket q (Fp.finite xv) i r ≤ i + r) := by
  intro r
  induction r with
  | zero =>
      intro i hi hFx
      refine ⟨fun _ => by simpa using hFx, fun h => absurd rfl h⟩
  | succ r ih =>
      intro i hi hFx
      have hqi := hF i (by omega)
      have hqip := hF (i + 1) (by omega)
      rw [scanBucket, hqi, hqip, Fp.le_finite, Fp.lt_finite]
      by_cases hc : F i ≤ xv ∧ xv < F (i + 1)
      · rw [if_pos (Bool.and_eq_true _ _ |>.mpr ⟨decide_eq_true hc.1, decide_eq_true hc.2⟩)]
        exact ⟨fun h => absurd h (by omega), fun _ => ⟨by omega, by omega⟩⟩
      · rw [if_neg (show ¬((decide (F i ≤ xv) && decide (xv < F (i + 1))) = true) by
          simp only [Bool.and_eq_true, decide_eq_true_eq]; exact hc)]
        have hnext : F (i + 1) ≤ xv := by
          by_contra hlt
          push_neg at hlt
          exact hc ⟨hFx, hlt⟩
        have hrec := ih (i + 1) (by omega) hnext
        refine ⟨fun h => ?_, fun h => ⟨?_, ?_⟩⟩
        · have := hrec.1 h
          rwa [show i + 1 + r = i + (r + 1) by omega] at this
        · have := (hrec.2 h).1
          omega
        · have := (hrec.2 h).2
          omega

/-- Bucket location of the histogram estimator on a finite input over a
monotone finite marker array: `k` lands in `[1, b]` and monotonicity is
preserved. -/
theorem Histogram.bucket_spec (b : ℕ) (q : List Fp) (xv : ℚ) (F : ℕ → ℚ)
    (hb : 4 ≤ b) (hlq : q.length = b + 1) (hF : RepF q F)
    (hmono : ∀ i, i + 1 < b + 1 → F i ≤ F (i + 1)) :
    ∃ F1, (Histogram.locate b q (Fp.finite xv)).1.length = b + 1 ∧
      RepF (Histogram.locate b q (Fp.finite xv)).1 F1 ∧
      (∀ i, i + 1 < b + 1 → F1 i ≤ F1 (i + 1)) ∧
      1 ≤ (Histogram.locate b q (Fp.finite xv)).2 ∧
      (Histogram.locate b q (Fp.finite xv)).2 ≤ b := by
  have h0 := hF 0 (by omega)
  have hbm := hF (b - 1) (by omega)
  have hbb := hF b (by omega)
  have hq0 : (0 : ℕ) < q.length := by omega
  have hqb : b < q.length := by omega
  rw [Histogram.locate]
  by_cases c1 : xv < F 0
  · rw [h0, Fp.lt_finite, if_pos (decide_eq_true c1)]
    rw [if_neg (by omega : ¬((1 : ℕ)) = 0)]
    refine ⟨Function.update F 0 xv, by simp [hlq], ?_, ?_, by omega, by omega⟩
    · intro j hj
      by_cases hj0 : j = 0
      · subst hj0
        rw [fget_set_self hq0, Function.update_same]
      · rw [fget_set_ne (fun e => hj0 e.symm), Function.update_noteq hj0]
        exact hF j (by simpa using hj)
    · intro j hj
      by_cases hj0 : j = 0
      · subst hj0
        rw [Function.update_same, Function.update_noteq (by omega)]
        exact le_of_lt (lt_of_lt_of_le c1 (hmono 0 (by omega)))
      · rw [Function.update_noteq hj0, Function.update_noteq (by omega)]
        exact hmono j hj
  · rw [h0, Fp.lt_finite,
      if_neg (show ¬(decide (xv < F 0) = true) by simp only [decide_eq_true_eq]; exact c1)]
    have e0 : F 0 ≤ xv := not_lt.mp c1
    have hscan := scanBucket_spec q xv F (b + 1) hF hlq (b - 1) 0 (by omega) e0
    by_cases hsv : scanBucket q (Fp.finite xv) 0 (b - 1) = 0
    · rw [if_pos hsv]
      have hupper : F (b - 1) ≤ xv := by
        have := hscan.1 hsv
        simpa using this
      rw [hbm, hbb, Fp.le_finite, Fp.le_finite, Fp.lt_finite]
      by_cases c2 : F (b - 1) ≤ xv ∧ xv ≤ F b
      · rw [if_pos (Bool.and_eq_true _ _ |>.mpr ⟨decide_eq_true c2.1, decide_eq_true c2.2⟩)]
        exact ⟨F, hlq, hF, hmono, by omega, by omega⟩
      · rw [if_neg (show ¬((decide (F (b - 1) ≤ xv) && decide (xv ≤ F b)) = true) by
          simp only [Bool.and_eq_true, decide_eq_true_eq]; exact c2)]
        have e4 : F b < xv := by
          by_contra hle
          push_neg at hle
          exact c2 ⟨hupper, hle⟩
        rw [if_pos (decide_eq_true e4)]
        refine ⟨Function.update F b xv, by simp [hlq], ?_, ?_, by omega, by omega⟩
        · intro j hj
          by_cases hjb : j = b
          · subst hjb
            rw [fget_set_self hqb, Function.update_same]
          · rw [fget_set_ne (fun e => hjb e.symm), Function.update_noteq hjb]
            exact hF j (by simpa using hj)
        · intro j hj
          by_cases hjb : j + 1 = b
          · rw [Function.update_noteq (by omega), hjb, Function.update_same]
            have hj2 : j = b - 1 := by omega
            subst hj2
            exact hupper
          · rw [Function.update_noteq (by omega), Function.update_noteq (by omega)]
            exact hmono j hj
    · rw [if_neg hsv]
      have hbnd := hscan.2 hsv
      exact ⟨F, hlq, hF, hmono, by omega, by omega⟩

/-! ### Branch characterisations of `Histogram::add` -/

theorem Histogram.add_nan (s : Histogram) : s.add Fp.nan = s := by
  rw [Histogram.add, if_pos (by simp)]

theorem Histogram.fill_step_eq (s : Histogram) (x : Fp) (hnan : x.isNan = false)
    (hc : 1 < s.cnt) :
    s.add x = { s with q := s.q.set (s.cnt - 1) x, cnt := s.cnt - 1 } := by
  rw [Histogram.add, if_neg (by rw [hnan]; simp), if_pos (by omega), if_neg (by omega)]

theorem Histogram.fill_done_eq (s : Histogram) (x : Fp) (hnan : x.isNan = false)
    (hc : s.cnt = 1) :
    s.add x = { s with q := sortFp (s.q.set 0 x), cnt := 0 } := by
  rw [Histogram.add, if_neg (by rw [hnan]; simp), if_pos (by omega), hc]
  rfl

theorem Histogram.steady_eq (s : Histogram) (x : Fp) (hnan : x.isNan = false)
    (hc : s.cnt = 0) :
    s.add x = { s with
      q := (relocPass (Histogram.n1f s.b) 1 (s.b - 1)
        ((Histogram.locate s.b s.q x).1, bumpFrom (Histogram.locate s.b s.q x).2 s.n)).1
      n := (relocPass (Histogram.n1f s.b) 1 (s.b - 1)
        ((Histogram.locate s.b s.q x).1, bumpFrom (Histogram.locate s.b s.q x).2 s.n)).2 } := by
  rw [Histogram.add, if_neg (by rw [hnan]; simp), if_neg (by omega)]

/-- The state produced by `Histogram::new`. -/
def Histogram.init (b : ℕ) : Histogram :=
  Histogram.clear
    { q := List.replicate (b + 1) (Fp.finite 0)
      n := List.replicate (b + 1) (Fp.finite 0)
      b := b
      cnt := 0 }

theorem Histogram.mk_eq_init {b : ℕ} (h1 : 4 ≤ b) (h2 : b ≤ 65534) :
    Histogram.new b = Except.ok (Histogram.init b) := by
  rw [Histogram.new, if_neg (by simp; omega)]
  rfl

theorem Histogram.init_q (b : ℕ) :
    (Histogram.init b).q = List.replicate (b + 1) (Fp.finite 0) := by
  show setZeros (List.replicate (b + 1) (Fp.finite 0)) (b + 1) = _
  rw [setZeros_eq _ _ (by simp)]
  simp

theorem Histogram.init_n (b : ℕ) :
    (Histogram.init b).n = iotaFp (b + 1) := by
  show setIota (List.replicate (b + 1) (Fp.finite 0)) (b + 1) = _
  rw [setIota_eq _ _ (by simp)]
  simp

theorem Histogram.n1f_eval (b : ℕ) (hb : b ≠ 0) (nl : List Fp) (zb : ℤ) (j : ℕ)
    (hlast : fget nl b = Fp.finite ((zb : ℤ) : ℚ)) :
    Histogram.n1f b nl j = Fp.finite (1 + (j : ℚ) * (((zb : ℤ) : ℚ) - 1) / (b : ℚ)) := by
  have hbq : ((b : ℚ)) ≠ 0 := by exact_mod_cast hb
  rw [Histogram.n1f, hlast, Fp.sub_finite, Fp.mul_finite, Fp.div_finite _ hbq, Fp.add_finite]

/-- Master invariant for the histogram estimator after `tot` accepted finite
observations. -/
def HInv (s : Histogram) (tot : ℕ) : Prop :=
  4 ≤ s.b ∧ s.b ≤ 65534 ∧
  s.q.length = s.b + 1 ∧ s.n.length = s.b + 1 ∧
  s.cnt = (s.b + 1) - min (s.b + 1) tot ∧
  (∀ i, i < s.b + 1 → (fget s.q i).isFinite = true) ∧
  (s.cnt = 0 → ∀ i, i + 1 < s.b + 1 → Fp.le (fget s.q i) (fget s.q (i + 1)) = true) ∧
  ∃ Z : ℕ → ℤ,
    RepZ s.n Z ∧
    (∀ i, i + 1 < s.b + 1 → Z i < Z (i + 1)) ∧
    Z 0 = 1 ∧ Z s.b = ((max (s.b + 1) tot : ℕ) : ℤ) ∧
    (0 < s.cnt → ∀ i, i < s.b + 1 → Z i = i + 1) ∧
    (s.cnt = 0 → ∀ i, 1 ≤ i → i + 1 < s.b + 1 →
      ((1 + (i : ℚ) * (((Z s.b : ℤ) : ℚ) - 1) / (s.b : ℚ)) - ((Z i : ℤ) : ℚ) ≤ -1 →
        Z i - Z (i - 1) ≤ 1))

theorem HInv_init (b : ℕ) (h1 : 4 ≤ b) (h2 : b ≤ 65534) :
    HInv (Histogram.init b) 0 := by
  have hq := Histogram.init_q b
  have hn := Histogram.init_n b
  have hcnt : (Histogram.init b).cnt = b + 1 := rfl
  have hb : (Histogram.init b).b = b := rfl
  refine ⟨h1, h2, by rw [hq, hb]; simp, by rw [hn, hb]; simp [iotaFp],
    by rw [hcnt, hb]; omega, ?_, ?_, ?_⟩
  · intro i hi
    rw [hq, fget_replicate_zero (by omega)]
    rfl
  · intro h0
    rw [hcnt] at h0
    omega
  · refine ⟨fun i => (i : ℤ) + 1, ?_, ?_, by norm_num, ?_, ?_, ?_⟩
    · intro i hi
      rw [hn] at hi ⊢
      simp only [iotaFp, List.length_map, List.length_range] at hi
      rw [fget_iotaFp hi]
      congr 1
    · intro i _
      simp only []
      omega
    · simp only [hb]
      push_cast
      omega
    · intro _ i _
      rfl
    · intro h0
      rw [hcnt] at h0
      omega

/-- One accepted finite observation preserves the histogram invariant, and
no occupancy count ever drops. -/
theorem HInv_add (s : Histogram) (tot : ℕ) (xv : ℚ) (h : HInv s tot) :
    HInv (s.add (Fp.finite xv)) (tot + 1) ∧
    ∀ i, i < s.b + 1 → Fp.le (fget s.n i) (fget (s.add (Fp.finite xv)).n i) = true := by
  obtain ⟨hb4, hb65, hlq, hln, hcnt, hfin, hmono, Z, hZ, hstrict, hZ0, hZb, hfill, hsinv⟩ := h
  have hbq : ((s.b : ℚ)) ≠ 0 := by
    have : (0 : ℕ) < s.b := by omega
    exact_mod_cast this.ne'
  have hcntb : s.cnt ≤ s.b + 1 := by omega
  have hself : ∀ i, i < s.b + 1 → Fp.le (fget s.n i) (fget s.n i) = true := by
    intro i hi
    rw [hZ i (by omega)]
    simp
  rcases Nat.lt_or_ge 1 s.cnt with hc | hc
  · -- fill step that does not complete the fill
    rw [Histogram.fill_step_eq s _ (by simp) hc]
    refine ⟨⟨hb4, hb65, by simp [hlq], hln,
      by show s.cnt - 1 = s.b + 1 - min (s.b + 1) (tot + 1); omega, ?_, ?_,
      Z, hZ, hstrict, hZ0,
      by show Z s.b = ((max (s.b + 1) (tot + 1) : ℕ) : ℤ); push_cast at hZb ⊢; omega,
      ?_, ?_⟩, ?_⟩
    · intro i hi
      have hi2 : i < s.b + 1 := hi
      show (fget (s.q.set (s.cnt - 1) (Fp.finite xv)) i).isFinite = true
      by_cases hic : i = s.cnt - 1
      · subst hic
        rw [fget_set_self (by rw [hlq]; omega)]
        rfl
      · rw [fget_set_ne (fun e => hic e.symm)]
        exact hfin i hi2
    · intro h0
      have h02 : s.cnt - 1 = 0 := h0
      omega
    · intro _ i hi
      exact hfill (by omega) i hi
    · intro h0
      have h02 : s.cnt - 1 = 0 := h0
      omega
    · intro i hi
      exact hself i hi
  · rcases (by omega : s.cnt = 0 ∨ s.cnt = 1) with hc0 | hc1
    · -- steady state
      rw [Histogram.steady_eq s _ (by simp) hc0]
      have htot : s.b + 1 ≤ tot := by omega
      have hFrep : RepF s.q (fun i => (fget s.q i).toQ) := by
        intro i hi
        exact Fp.eq_finite_toQ (hfin i (by omega))
      have hFmono : ∀ i, i + 1 < s.b + 1 →
          (fget s.q i).toQ ≤ (fget s.q (i + 1)).toQ := by
        intro i hi
        have hcomp := hmono hc0 i hi
        rw [Fp.eq_finite_toQ (hfin i (by omega)),
          Fp.eq_finite_toQ (hfin (i + 1) (by omega))] at hcomp
        exact Fp.le_iff_of_finite.mp hcomp
      obtain ⟨F1, hl1, hF1, hF1mono, hkk1, hkk4⟩ :=
        Histogram.bucket_spec s.b s.q xv (fun i => (fget s.q i).toQ) hb4 hlq hFrep hFmono
      set k := (Histogram.locate s.b s.q (Fp.finite xv)).2 with hkdef
      set Zb : ℕ → ℤ := fun i => if k ≤ i then Z i + 1 else Z i with hZbdef
      have hZbk : ∀ i, k ≤ i → Zb i = Z i + 1 := by
        intro i hi
        rw [hZbdef]
        simp [hi]
      have hZbn : ∀ i, i < k → Zb i = Z i := by
        intro i hi
        rw [hZbdef]
        simp [Nat.not_le.mpr hi]
      have hZb2 : RepZ (bumpFrom k s.n) Zb := by
        intro i hi
        rw [length_bumpFrom] at hi
        rw [fget_bumpFrom k s.n i hi, hZ i hi]
        by_cases hki : k ≤ i
        · rw [if_pos hki, Fp.add_finite, hZbk i hki]
          congr 1
          push_cast
          ring
        · rw [if_neg hki, hZbn i (by omega)]
      have hZbstrict : ∀ i, i + 1 < s.b + 1 → Zb i < Zb (i + 1) := by
        intro i hi
        have := hstrict i hi
        by_cases h1 : k ≤ i
        · rw [hZbk i h1, hZbk (i + 1) (by omega)]
          omega
        · by_cases h2 : k ≤ i + 1
          · rw [hZbn i (by omega), hZbk (i + 1) h2]
            omega
          · rw [hZbn i (by omega), hZbn (i + 1) (by omega)]
            omega
      set c : ℕ → ℚ := fun j => 1 + (j : ℚ) * (((Z s.b + 1 : ℤ) : ℚ) - 1) / (s.b : ℚ)
        with hcdef
      have hcv : ∀ j : ℕ, c j = 1 + (j : ℚ) * (((Z s.b + 1 : ℤ) : ℚ) - 1) / (s.b : ℚ) :=
        fun j => rfl
      have hRv : ∀ j : ℕ, 0 ≤ (j : ℚ) / (s.b : ℚ) ∧
          c j - (1 + (j : ℚ) * (((Z s.b : ℤ) : ℚ) - 1) / (s.b : ℚ)) = (j : ℚ) / (s.b : ℚ) := by
        intro j
        have hbpos : (0 : ℚ) < (s.b : ℚ) := by
          have : (0 : ℕ) < s.b := by omega
          exact_mod_cast this
        constructor
        · positivity
        · rw [hcv]
          push_cast
          field_simp
          ring
      have hZbtop : Zb s.b = Z s.b + 1 := hZbk s.b (by omega)
      have hf : ∀ nl : List Fp, nl.length = s.b + 1 →
          fget nl (s.b + 1 - 1) = Fp.finite ((Zb (s.b + 1 - 1) : ℤ) : ℚ) →
          ∀ j, 1 ≤ j → j + 1 < s.b + 1 → Histogram.n1f s.b nl j = Fp.finite (c j) := by
        intro nl _ hlast j _ _
        have hlast2 : fget nl s.b = Fp.finite ((Z s.b + 1 : ℤ) : ℚ) := by
          have h2 : s.b + 1 - 1 = s.b := by omega
          rw [h2] at hlast
          rw [hlast, hZbtop]
        rw [Histogram.n1f_eval s.b (by omega) nl (Z s.b + 1) j hlast2, hcv]
      have hA : ∀ j, 1 ≤ j → j + 1 < s.b + 1 → j < k →
          (c j - ((Zb j : ℤ) : ℚ) ≤ -1 → Zb j - Zb (j - 1) ≤ 1) := by
        intro j hj1 hj4 hjk hd
        rw [hZbn j hjk] at hd
        have h1 := (hRv j).1
        have h22 : (1 + (j : ℚ) * (((Z s.b + 1 : ℤ) : ℚ) - 1) / (s.b : ℚ)) -
            (1 + (j : ℚ) * (((Z s.b : ℤ) : ℚ) - 1) / (s.b : ℚ)) = (j : ℚ) / (s.b : ℚ) :=
          (hRv j).2
        have hd2 : (1 + (j : ℚ) * (((Z s.b + 1 : ℤ) : ℚ) - 1) / (s.b : ℚ)) -
            ((Z j : ℤ) : ℚ) ≤ -1 := hd
        have hRd : (1 + (j : ℚ) * (((Z s.b : ℤ) : ℚ) - 1) / (s.b : ℚ)) -
            ((Z j : ℤ) : ℚ) ≤ -1 := by linarith [h1, h22, hd2]
        have hgap := hsinv hc0 j hj1 hj4 hRd
        rw [hZbn j hjk, hZbn (j - 1) (by omega)]
        exact hgap
      have hB : ∀ j, 1 ≤ j → j + 1 < s.b + 1 → k ≤ j →
          (c j - ((Zb j : ℤ) : ℚ) ≤ -2 → Zb j - Zb (j - 1) - (if j = k then 1 else 0) ≤ 1) := by
        intro j hj1 hj4 hkj hd
        rw [hZbk j hkj] at hd
        have h1 := (hRv j).1
        have h22 : (1 + (j : ℚ) * (((Z s.b + 1 : ℤ) : ℚ) - 1) / (s.b : ℚ)) -
            (1 + (j : ℚ) * (((Z s.b : ℤ) : ℚ) - 1) / (s.b : ℚ)) = (j : ℚ) / (s.b : ℚ) :=
          (hRv j).2
        have hd2 : (1 + (j : ℚ) * (((Z s.b + 1 : ℤ) : ℚ) - 1) / (s.b : ℚ)) -
            ((Z j + 1 : ℤ) : ℚ) ≤ -2 := hd
        have hcast : ((Z j + 1 : ℤ) : ℚ) = ((Z j : ℤ) : ℚ) + 1 := by
          push_cast
          ring
        rw [hcast] at hd2
        have hd3 : (1 + (j : ℚ) * (((Z s.b + 1 : ℤ) : ℚ) - 1) / (s.b : ℚ)) -
            ((Z j : ℤ) : ℚ) ≤ -1 := by linarith [hd2]
        have hRd : (1 + (j : ℚ) * (((Z s.b : ℤ) : ℚ) - 1) / (s.b : ℚ)) -
            ((Z j : ℤ) : ℚ) ≤ -1 := by linarith [h1, h22, hd3]
        have hgap := hsinv hc0 j hj1 hj4 hRd
        rw [hZbk j hkj]
        by_cases hjek : j = k
        · rw [if_pos hjek, hZbn (j - 1) (by omega)]
          omega
        · rw [if_neg hjek, hZbk (j - 1) (by omega)]
          omega
      have hpass := relocPass_spec (s.b + 1) k c (Histogram.n1f s.b) Zb
        hkk1 (by omega)
        (by have hus : (65536 : ℕ) ≤ Fp.usizeMax := by norm_num [Fp.usizeMax]
            omega)
        hf hA hB (s.b - 1) 1 (Histogram.locate s.b s.q (Fp.finite xv)).1 (bumpFrom k s.n)
        F1 Zb (by omega) (by omega) hl1 (by rw [length_bumpFrom]; exact hln)
        hF1 hZb2 hF1mono hZbstrict (fun j _ _ => rfl) rfl
        (fun j hj1 hj0 => absurd hj0 (by omega))
      obtain ⟨F2, Z2, g1, g2, g3, g4, g5, g6, g7, g8, g9⟩ := hpass
      have hZ2top : Z2 s.b = Z s.b + 1 := by
        have h2 : s.b + 1 - 1 = s.b := by omega
        rw [h2] at g8
        rw [g8, hZbtop]
      refine ⟨⟨hb4, hb65, g1, g2,
        by show s.cnt = s.b + 1 - min (s.b + 1) (tot + 1); omega,
        ?_, ?_, Z2, g4, g6, ?_, ?_, ?_, ?_⟩, ?_⟩
      · intro i hi
        have hi2 : i < s.b + 1 := hi
        show (fget (relocPass (Histogram.n1f s.b) 1 (s.b - 1)
          ((Histogram.locate s.b s.q (Fp.finite xv)).1, bumpFrom k s.n)).1 i).isFinite = true
        rw [g3 i (by rw [g1]; omega)]
        rfl
      · intro _ i hi
        have hi2 : i + 1 < s.b + 1 := hi
        show Fp.le
          (fget (relocPass (Histogram.n1f s.b) 1 (s.b - 1)
            ((Histogram.locate s.b s.q (Fp.finite xv)).1, bumpFrom k s.n)).1 i)
          (fget (relocPass (Histogram.n1f s.b) 1 (s.b - 1)
            ((Histogram.locate s.b s.q (Fp.finite xv)).1, bumpFrom k s.n)).1 (i + 1)) = true
        rw [g3 i (by rw [g1]; omega), g3 (i + 1) (by rw [g1]; omega)]
        exact Fp.le_iff_of_finite.mpr (g5 i hi2)
      · rw [g7, hZbn 0 (by omega), hZ0]
      · show Z2 s.b = ((max (s.b + 1) (tot + 1) : ℕ) : ℤ)
        rw [hZ2top]
        push_cast at hZb ⊢
        omega
      · intro h0
        exact absurd (show 0 < s.cnt from h0) (by omega)
      · intro _ i hi1 hib
        have hib2 : i + 1 < s.b + 1 := hib
        show (1 + (i : ℚ) * (((Z2 s.b : ℤ) : ℚ) - 1) / (s.b : ℚ)) - ((Z2 i : ℤ) : ℚ) ≤ -1 →
          Z2 i - Z2 (i - 1) ≤ 1
        rw [hZ2top]
        have h3 := (g9 i hi1 (by omega)).1
        rw [hcv i] at h3
        exact h3
      · intro i hi
        show Fp.le (fget s.n i)
          (fget (relocPass (Histogram.n1f s.b) 1 (s.b - 1)
            ((Histogram.locate s.b s.q (Fp.finite xv)).1, bumpFrom k s.n)).2 i) = true
        rw [hZ i (by omega), g4 i (by rw [g2]; omega), Fp.le_finite]
        have hgrow : Z i ≤ Z2 i := by
          rcases Nat.eq_zero_or_pos i with h0 | h0
          · subst h0
            rw [g7, hZbn 0 (by omega)]
          · by_cases hib : i = s.b
            · subst hib
              rw [hZ2top]
              omega
            · have hfacts := g9 i (by omega) (by omega)
              by_cases hik : i < k
              · have := hfacts.2.1 hik
                rw [hZbn i hik] at this
                omega
              · have := hfacts.2.2.2
                rw [hZbk i (by omega)] at this
                omega
        simp only [decide_eq_true_eq]
        exact_mod_cast hgrow
    · -- the observation that completes the fill
      rw [Histogram.fill_done_eq s _ (by simp) hc1]
      have htot : tot = s.b := by omega
      have hq2fin : ∀ i, i < (s.q.set 0 (Fp.finite xv)).length →
          (fget (s.q.set 0 (Fp.finite xv)) i).isFinite = true := by
        intro i hi
        rw [List.length_set] at hi
        by_cases hi0 : i = 0
        · subst hi0
          rw [fget_set_self (by omega)]
          rfl
        · rw [fget_set_ne (fun e => hi0 e.symm)]
          exact hfin i (by omega)
      have hmem := allFinite_of_index hq2fin
      have hnanfree : ∀ v ∈ s.q.set 0 (Fp.finite xv), v.isNan = false :=
        fun v hv => Fp.isNan_false_of_isFinite (hmem v hv)
      have hsortlen : (sortFp (s.q.set 0 (Fp.finite xv))).length = s.b + 1 := by
        rw [sortFp_length, List.length_set, hlq]
      refine ⟨⟨hb4, hb65, hsortlen, hln,
        by show (0 : ℕ) = s.b + 1 - min (s.b + 1) (tot + 1); omega, ?_, ?_,
        Z, hZ, hstrict, hZ0,
        by show Z s.b = ((max (s.b + 1) (tot + 1) : ℕ) : ℤ); push_cast at hZb ⊢; omega,
        ?_, ?_⟩, ?_⟩
      · intro i hi
        have hi2 : i < s.b + 1 := hi
        have hil : i < (sortFp (s.q.set 0 (Fp.finite xv))).length := by
          rw [hsortlen]
          omega
        exact sortFp_isFinite hmem _ (fget_mem hil)
      · intro _ i hi
        have hi2 : i + 1 < s.b + 1 := hi
        exact sortFp_mono hnanfree i (by rw [hsortlen]; omega)
      · intro h0
        exact absurd (show (0 : ℕ) < 0 from h0) (by omega)
      · intro _ i hi1 hib _
        have hib2 : i + 1 < s.b + 1 := hib
        have hzi := hfill (by omega) i (by omega)
        have hzim := hfill (by omega) (i - 1) (by omega)
        omega
      · intro i hi
        exact hself i hi

theorem runH_cons (s : Histogram) (x : Fp) (xs : List Fp) :
    runH s (x :: xs) = runH (s.add x) xs := rfl

theorem runH_append_one (s : Histogram) (xs : List Fp) (x : Fp) :
    runH s (xs ++ [x]) = (runH s xs).add x := by
  simp [runH, List.foldl_append]

theorem Histogram.add_b (s : Histogram) (x : Fp) : (s.add x).b = s.b := by
  rw [Histogram.add]
  by_cases h1 : x.isNan = true
  · rw [if_pos h1]
  · rw [if_neg h1]
    by_cases h2 : 0 < s.cnt
    · rw [if_pos h2]
      by_cases h3 : s.cnt - 1 = 0
      · rw [if_pos h3]
      · rw [if_neg h3]
    · rw [if_neg h2]

theorem runH_b (s : Histogram) (xs : List Fp) : (runH s xs).b = s.b := by
  induction xs generalizing s with
  | nil => rfl
  | cons x rest ih => rw [runH_cons, ih, Histogram.add_b]

theorem HInv_run (s : Histogram) (tot : ℕ) (xs : List Fp) (h : HInv s tot)
    (hxs : ∀ x ∈ xs, x.isFinite = true) :
    HInv (runH s xs) (tot + xs.length) := by
  induction xs generalizing s tot with
  | nil => simpa [runH] using h
  | cons x rest ih =>
      obtain ⟨xv, rfl⟩ := Fp.isFinite_iff.mp (hxs x (by simp))
      have hstep := HInv_add s tot xv h
      have hrec := ih (s.add (Fp.finite xv)) (tot + 1) hstep.1
        (fun y hy => hxs y (by simp [hy]))
      rw [runH_cons, show tot + (Fp.finite xv :: rest).length = tot + 1 + rest.length by
        simp [List.length_cons]; omega]
      exact hrec

theorem Histogram.new_ok {b : ℕ} {s0 : Histogram}
    (hb : b ≤ 65535) (hok : Histogram.new b = Except.ok s0) :
    4 ≤ b ∧ b ≤ 65534 ∧ s0 = Histogram.init b := by
  rw [Histogram.new] at hok
  by_cases hcond : (decide (b < 4) || decide (b = 65535)) = true
  · rw [if_pos hcond] at hok
    exact absurd hok (by simp)
  · rw [if_neg hcond] at hok
    simp only [Bool.or_eq_true, decide_eq_true_eq, not_or] at hcond
    refine ⟨by omega, by omega, ?_⟩
    have := Except.ok.inj hok
    rw [← this]
    rfl

theorem HInv_reach {b : ℕ} {s0 : Histogram} (xs : List Fp)
    (hb : b ≤ 65535) (hok : Histogram.new b = Except.ok s0)
    (hxs : ∀ x ∈ xs, x.isFinite = true) :
    HInv (runH s0 xs) xs.length := by
  obtain ⟨h1, h2, rfl⟩ := Histogram.new_ok hb hok
  have := HInv_run _ 0 xs (HInv_init b h1 h2) hxs
  simpa using this

/-! ### The test fixture of `src/src/lib.rs` and the claims -/

/-- The 20-observation sequence `OBS` from the test suite. -/
def obs20 : List Fp :=
  [Fp.finite (mkRat 2 100), Fp.finite (mkRat 15 100), Fp.finite (mkRat 74 100),
   Fp.finite (mkRat 339 100), Fp.finite (mkRat 83 100), Fp.finite (mkRat 2237 100),
   Fp.finite (mkRat 1015 100), Fp.finite (mkRat 1543 100), Fp.finite (mkRat 3862 100),
   Fp.finite (mkRat 1592 100), Fp.finite (mkRat 3460 100), Fp.finite (mkRat 1028 100),
   Fp.finite (mkRat 147 100), Fp.finite (mkRat 40 100), Fp.finite (mkRat 5 100),
   Fp.finite (mkRat 1139 100), Fp.finite (mkRat 27 100), Fp.finite (mkRat 42 100),
   Fp.finite (mkRat 9 100), Fp.finite (mkRat 1137 100)]

/-- The median estimator of the tests after all 20 observations. -/
def c1Q : Quantile := runQ (Quantile.init (Fp.finite (mkRat 1 2))) obs20

/-- The 4-bucket histogram of the tests after all 20 observations. -/
def c1H : Histogram := runH (Histogram.init 4) obs20

/-- The median estimator after the first 5 observations only. -/
def c1Q5 : Quantile := runQ (Quantile.init (Fp.finite (mkRat 1 2))) (obs20.take 5)

/-- The 4-bucket histogram after the first 5 observations only. -/
def c1H5 : Histogram := runH (Histogram.init 4) (obs20.take 5)

/-- `|a - t| < tol`, computed with the model arithmetic. -/
def within (a : Fp) (t tol : ℚ) : Bool :=
  Fp.lt (Fp.sub a (Fp.finite t)) (Fp.finite tol) &&
  Fp.lt (Fp.sub (Fp.finite t) a) (Fp.finite tol)

/-- An estimate call succeeded and its value is within `tol` of `t`. -/
def estWithin (o : Option Fp) (t tol : ℚ) : Bool :=
  match o with
  | some v => within v t tol
  | none => false

set_option maxRecDepth 100000 in
/-- C1: for Quantile with p = 0.5 and Histogram with b = 4, after the
20-value fixture sequence, `estimate(1..5)` is within 1e-5 of
[0.02, 0.493895, 4.44063, 17.2039, 38.62] and `count(1..5)` is
[1, 6, 10, 16, 20]; after exactly the first 5 values, `estimate(1..5)` is
exactly [0.02, 0.15, 0.74, 0.83, 3.39] and `count(1..5)` is [1, 2, 3, 4, 5]. -/
theorem C1 :
    (estWithin (Quantile.estimate c1Q 1) (mkRat 2 100) (mkRat 1 100000) = true ∧
     estWithin (Quantile.estimate c1Q 2) (mkRat 493895 1000000) (mkRat 1 100000) = true ∧
     estWithin (Quantile.estimate c1Q 3) (mkRat 444063 100000) (mkRat 1 100000) = true ∧
     estWithin (Quantile.estimate c1Q 4) (mkRat 172039 10000) (mkRat 1 100000) = true ∧
     estWithin (Quantile.estimate c1Q 5) (mkRat 3862 100) (mkRat 1 100000) = true) ∧
    (Quantile.count c1Q 1 = some 1 ∧ Quantile.count c1Q 2 = some 6 ∧
     Quantile.count c1Q 3 = some 10 ∧ Quantile.count c1Q 4 = some 16 ∧
     Quantile.count c1Q 5 = some 20) ∧
    (estWithin (Histogram.estimate c1H 1) (mkRat 2 100) (mkRat 1 100000) = true ∧
     estWithin (Histogram.estimate c1H 2) (mkRat 493895 1000000) (mkRat 1 100000) = true ∧
     estWithin (Histogram.estimate c1H 3) (mkRat 444063 100000) (mkRat 1 100000) = true ∧
     estWithin (Histogram.estimate c1H 4) (mkRat 172039 10000) (mkRat 1 100000) = true ∧
     estWithin (Histogram.estimate c1H 5) (mkRat 3862 100) (mkRat 1 100000) = true) ∧
    (Histogram.count c1H 1 = some 1 ∧ Histogram.count c1H 2 = some 6 ∧
     Histogram.count c1H 3 = some 10 ∧ Histogram.count c1H 4 = some 16 ∧
     Histogram.count c1H 5 = some 20) ∧
    (Quantile.estimate c1Q5 1 = some (Fp.finite (mkRat 2 100)) ∧
     Quantile.estimate c1Q5 2 = some (Fp.finite (mkRat 15 100)) ∧
     Quantile.estimate c1Q5 3 = some (Fp.finite (mkRat 74 100)) ∧
     Quantile.estimate c1Q5 4 = some (Fp.finite (mkRat 83 100)) ∧
     Quantile.estimate c1Q5 5 = some (Fp.finite (mkRat 339 100))) ∧
    (Quantile.count c1Q5 1 = some 1 ∧ Quantile.count c1Q5 2 = some 2 ∧
     Quantile.count c1Q5 3 = some 3 ∧ Quantile.count c1Q5 4 = some 4 ∧
     Quantile.count c1Q5 5 = some 5) ∧
    (Histogram.estimate c1H5 1 = some (Fp.finite (mkRat 2 100)) ∧
     Histogram.estimate c1H5 2 = some (Fp.finite (mkRat 15 100)) ∧
     Histogram.estimate c1H5 3 = some (Fp.finite (mkRat 74 100)) ∧
     Histogram.estimate c1H5 4 = some (Fp.finite (mkRat 83 100)) ∧
     Histogram.estimate c1H5 5 = some (Fp.finite (mkRat 339 100))) ∧
    (Histogram.count c1H5 1 = some 1 ∧ Histogram.count c1H5 2 = some 2 ∧
     Histogram.count c1H5 3 = some 3 ∧ Histogram.count c1H5 4 = some 4 ∧
     Histogram.count c1H5 5 = some 5) := by
  decide

/-- A Quantile estimator that has just completed its fill phase on the
observations 1..5. -/
def qReady : Quantile :=
  runQ (Quantile.init (Fp.finite (mkRat 1 2)))
    [Fp.finite 1, Fp.finite 2, Fp.finite 3, Fp.finite 4, Fp.finite 5]

/-- A Quantile estimator one observation short of completing its fill. -/
def qFour : Quantile :=
  runQ (Quantile.init (Fp.finite (mkRat 1 2)))
    [Fp.finite 1, Fp.finite 2, Fp.finite 3, Fp.finite 4]

/-- A Histogram estimator that has just completed its fill phase on the
observations 1..5. -/
def hReady : Histogram :=
  runH (Histogram.init 4)
    [Fp.finite 1, Fp.finite 2, Fp.finite 3, Fp.finite 4, Fp.finite 5]

/-- C2 (amended: the marker values are sorted after every `add` once the
fill phase has completed; during the fill phase the array is stored in
reverse order and need not be sorted): for either estimator constructed
with a valid parameter, after any sequence of finite inputs that leaves
the estimator in its ready state, `q[0] ≤ q[1] ≤ … ≤ q[m-1]`. -/
theorem C2 :
    (∀ (p : Fp) (s0 : Quantile) (xs : List Fp),
      p.isFinite = true → Quantile.new p = Except.ok s0 →
      (∀ x ∈ xs, x.isFinite = true) →
      (runQ s0 xs).cnt = 0 →
      ∀ i, i + 1 < 5 →
        Fp.le (fget (runQ s0 xs).q i) (fget (runQ s0 xs).q (i + 1)) = true) ∧
    (∀ (b : ℕ) (t0 : Histogram) (xs : List Fp),
      b ≤ 65535 → Histogram.new b = Except.ok t0 →
      (∀ x ∈ xs, x.isFinite = true) →
      (runH t0 xs).cnt = 0 →
      ∀ i, i + 1 < (runH t0 xs).b + 1 →
        Fp.le (fget (runH t0 xs).q i) (fget (runH t0 xs).q (i + 1)) = true) := by
  constructor
  · intro p s0 xs hp hok hxs hcnt i hi
    obtain ⟨_, _, _, _, _, _, hmono, _⟩ := QInv_reach xs hp hok hxs
    exact hmono hcnt i hi
  · intro b t0 xs hb hok hxs hcnt i hi
    obtain ⟨_, _, _, _, _, _, hmono, _⟩ := HInv_reach xs hb hok hxs
    exact hmono hcnt i hi

theorem C2_witness :
    Fp.le (fget qReady.q 0) (fget qReady.q 1) = true :=
  C2.1 (Fp.finite (mkRat 1 2)) (Quantile.init (Fp.finite (mkRat 1 2)))
    [Fp.finite 1, Fp.finite 2, Fp.finite 3, Fp.finite 4, Fp.finite 5]
    (by decide) (Quantile.new_eq_init (by decide)) (by decide) (by decide) 0 (by decide)

set_option maxRecDepth 100000 in
/-- C2 counterexample: the original claim also asserts sortedness after
fill-phase `add` calls, but the fill phase stores observations in reverse
order: after a single `add(-1)` on a fresh `Quantile(0.5)`, the marker
array is `[0, 0, 0, 0, -1]`, so `q[3] ≤ q[4]` fails. -/
theorem C2_counterexample :
    Fp.le
      (fget ((Quantile.init (Fp.finite (mkRat 1 2))).add
        (Fp.finite (mkRat (-1) 1))).2.q 3)
      (fget ((Quantile.init (Fp.finite (mkRat 1 2))).add
        (Fp.finite (mkRat (-1) 1))).2.q 4) = false := by
  decide

/-- C3 (amended: restricted to finite inputs; the original claim over all
non-NaN inputs is refuted by `C3_counterexample`, where a +∞ observation
corrupts the marker values and later lets `n[0]` grow past 1): for either
estimator constructed with a valid parameter and fed any sequence of
finite inputs, the occupancy counts `n` are strictly increasing in the
marker index with `n[0] = 1`, no `n[i]` decreases across a further `add`
of a finite value, and once the fill phase is complete `count(m)` equals
the number of observations added. -/
theorem C3 :
    (∀ (p : Fp) (s0 : Quantile) (xs : List Fp),
      p.isFinite = true → Quantile.new p = Except.ok s0 →
      (∀ x ∈ xs, x.isFinite = true) →
      (fget (runQ s0 xs).n 0 = Fp.finite 1 ∧
       (∀ i, i + 1 < 5 →
         Fp.lt (fget (runQ s0 xs).n i) (fget (runQ s0 xs).n (i + 1)) = true) ∧
       (∀ xv : ℚ, ∀ i, i < 5 →
         Fp.le (fget (runQ s0 xs).n i)
           (fget ((runQ s0 xs).add (Fp.finite xv)).2.n i) = true) ∧
       ((runQ s0 xs).cnt = 0 → xs.length ≤ Fp.usizeMax →
         Quantile.count (runQ s0 xs) 5 = some xs.length))) ∧
    (∀ (b : ℕ) (t0 : Histogram) (xs : List Fp),
      b ≤ 65535 → Histogram.new b = Except.ok t0 →
      (∀ x ∈ xs, x.isFinite = true) →
      (fget (runH t0 xs).n 0 = Fp.finite 1 ∧
       (∀ i, i + 1 < (runH t0 xs).b + 1 →
         Fp.lt (fget (runH t0 xs).n i) (fget (runH t0 xs).n (i + 1)) = true) ∧
       (∀ xv : ℚ, ∀ i, i < (runH t0 xs).b + 1 →
         Fp.le (fget (runH t0 xs).n i)
           (fget ((runH t0 xs).add (Fp.finite xv)).n i) = true) ∧
       ((runH t0 xs).cnt = 0 → xs.length ≤ Fp.usizeMax →
         Histogram.count (runH t0 xs) ((runH t0 xs).b + 1) = some xs.length))) := by
  constructor
  · intro p s0 xs hp hok hxs
    have hinv := QInv_reach xs hp hok hxs
    obtain ⟨hlq, hln, hln1, hcnt, hpr, hfin, hmono, Z, R, hZ, hstrict, hZ0, hZ4, hrest⟩ := hinv
    refine ⟨?_, ?_, ?_, ?_⟩
    · rw [hZ 0 (by omega), hZ0]
      norm_num
    · intro i hi
      rw [hZ i (by omega), hZ (i + 1) (by omega), Fp.lt_finite]
      have := hstrict i hi
      simp only [decide_eq_true_eq]
      exact_mod_cast this
    · intro xv i hi
      have hgrow := (QInv_add (runQ s0 xs) xs.length xv (QInv_reach xs hp hok hxs)).2
      exact hgrow i hi
    · intro h0 hus
      rw [Quantile.count, if_neg (by omega), if_neg (by omega),
        if_pos (by rw [hln]; omega)]
      have htot : 5 ≤ xs.length := by omega
      have hZ4v : Z 4 = (xs.length : ℤ) := by
        rw [hZ4]
        congr 1
        omega
      rw [hZ 4 (by omega), hZ4v]
      have hcast : ((xs.length : ℤ) : ℚ) = ((xs.length : ℕ) : ℚ) := by push_cast; ring
      rw [hcast, Fp.toUsize_natCast _ hus]
  · intro b t0 xs hb hok hxs
    have hinv := HInv_reach xs hb hok hxs
    obtain ⟨hb4, hb65, hlq, hln, hcnt, hfin, hmono, Z, hZ, hstrict, hZ0, hZb, hfill, hsinv⟩ :=
      hinv
    refine ⟨?_, ?_, ?_, ?_⟩
    · rw [hZ 0 (by omega), hZ0]
      norm_num
    · intro i hi
      rw [hZ i (by omega), hZ (i + 1) (by omega), Fp.lt_finite]
      have := hstrict i hi
      simp only [decide_eq_true_eq]
      exact_mod_cast this
    · intro xv i hi
      have hgrow := (HInv_add (runH t0 xs) xs.length xv (HInv_reach xs hb hok hxs)).2
      exact hgrow i hi
    · intro h0 hus
      rw [Histogram.count, if_neg (by omega), if_neg (by omega),
        if_pos (by rw [hln]; omega)]
      have htot : (runH t0 xs).b + 1 ≤ xs.length := by omega
      have hZbv : Z (runH t0 xs).b = (xs.length : ℤ) := by
        rw [hZb]
        congr 1
        omega
      rw [show (runH t0 xs).b + 1 - 1 = (runH t0 xs).b from by omega,
        hZ (runH t0 xs).b (by omega), hZbv]
      have hcast : ((xs.length : ℤ) : ℚ) = ((xs.length : ℕ) : ℚ) := by push_cast; ring
      rw [hcast, Fp.toUsize_natCast _ hus]

theorem C3_witness :
    fget qReady.n 0 = Fp.finite 1 ∧
    Quantile.count qReady 5 = some 5 :=
  have h := C3.1 (Fp.finite (mkRat 1 2)) (Quantile.init (Fp.finite (mkRat 1 2)))
    [Fp.finite 1, Fp.finite 2, Fp.finite 3, Fp.finite 4, Fp.finite 5]
    (by decide) (Quantile.new_eq_init (by decide)) (by decide)
  ⟨h.1, h.2.2.2 (by decide) (by decide)⟩

/-- The trace refuting the original C3: five finite fill values, a +∞
observation accepted in steady state, then finite values; the NaN values
this plants in `q` eventually route a bucket search to `k = 0`, bumping
`n[0]` to 2. -/
def c3Trace : List Fp :=
  [Fp.finite 1, Fp.finite 2, Fp.finite 3, Fp.finite 4, Fp.finite 5, Fp.posInf,
   Fp.finite 6, Fp.finite 7, Fp.finite 8, Fp.finite 9, Fp.finite 10, Fp.finite 3]

set_option maxRecDepth 100000 in
/-- C3 counterexample: after the non-NaN trace `c3Trace` (which contains
+∞), the first occupancy count of the quantile estimator is 2, not 1. -/
theorem C3_counterexample :
    fget (runQ (Quantile.init (Fp.finite (mkRat 1 2))) c3Trace).n 0 = Fp.finite 2 := by
  decide

/-- C4: the return contract of `Quantile::add`: NaN during fill returns
NaN and changes nothing; NaN when ready echoes the center estimate `q[2]`
and changes nothing; a finite value during the fill returns NaN unless it
completes the fill, and on completion or in steady state the returned
value is the (possibly just-updated) center marker `q[2]`. -/
theorem C4 (s : Quantile) :
    (0 < s.cnt → s.add Fp.nan = (Fp.nan, s)) ∧
    (s.cnt = 0 → s.add Fp.nan = (fget s.q 2, s)) ∧
    (∀ xv : ℚ, 1 < s.cnt → (s.add (Fp.finite xv)).1 = Fp.nan) ∧
    (∀ xv : ℚ, s.cnt = 1 →
      (s.add (Fp.finite xv)).1 = fget (s.add (Fp.finite xv)).2.q 2) ∧
    (∀ xv : ℚ, s.cnt = 0 →
      (s.add (Fp.finite xv)).1 = fget (s.add (Fp.finite xv)).2.q 2) := by
  refine ⟨?_, ?_, ?_, ?_, ?_⟩
  · intro h
    exact Quantile.add_nan_fill s (by omega)
  · intro h
    exact Quantile.add_nan_ready s h
  · intro xv h
    rw [Quantile.add_fill_eq s _ (by simp) h]
  · intro xv h
    rw [Quantile.add_complete_eq s _ (by simp) h]
  · intro xv h
    rw [Quantile.add_steady_eq s _ (by simp) h]

theorem C4_witness :
    ((Quantile.init (Fp.finite (mkRat 1 2))).add Fp.nan =
      (Fp.nan, Quantile.init (Fp.finite (mkRat 1 2)))) ∧
    (qReady.add Fp.nan = (fget qReady.q 2, qReady)) ∧
    (((Quantile.init (Fp.finite (mkRat 1 2))).add (Fp.finite 1)).1 = Fp.nan) ∧
    ((qFour.add (Fp.finite 1)).1 = fget (qFour.add (Fp.finite 1)).2.q 2) ∧
    ((qReady.add (Fp.finite 1)).1 = fget (qReady.add (Fp.finite 1)).2.q 2) :=
  ⟨(C4 (Quantile.init (Fp.finite (mkRat 1 2)))).1 (by decide),
   (C4 qReady).2.1 (by decide),
   (C4 (Quantile.init (Fp.finite (mkRat 1 2)))).2.2.1 1 (by decide),
   (C4 qFour).2.2.2.1 1 (by decide),
   (C4 qReady).2.2.2.2 1 (by decide)⟩

/-- C5 (amended: in the code an out-of-range marker does not produce a
recoverable error value; the indexing panics, modelled here by `none`,
except that a not-ready estimator returns its sentinel before the marker
is ever inspected): for a ready estimator, `estimate`/`count` with
`marker = 0` or `marker > m` evaluate to `none` — they never read out of
bounds and never return a value. -/
theorem C5 :
    (∀ (s : Quantile) (marker : ℕ), s.cnt = 0 →
      s.q.length = 5 → s.n.length = 5 →
      marker = 0 ∨ 5 < marker →
      Quantile.estimate s marker = none ∧ Quantile.count s marker = none) ∧
    (∀ (t : Histogram) (marker : ℕ), t.cnt = 0 →
      t.q.length = t.b + 1 → t.n.length = t.b + 1 →
      marker = 0 ∨ t.b + 1 < marker →
      Histogram.estimate t marker = none ∧ Histogram.count t marker = none) := by
  constructor
  · intro s marker h0 hq hn hm
    constructor
    · rw [Quantile.estimate, if_neg (by omega)]
      rcases hm with hm | hm
      · rw [if_pos hm]
      · rw [if_neg (by omega), if_neg (by rw [hq]; omega)]
    · rw [Quantile.count, if_neg (by omega)]
      rcases hm with hm | hm
      · rw [if_pos hm]
      · rw [if_neg (by omega), if_neg (by rw [hn]; omega)]
  · intro t marker h0 hq hn hm
    constructor
    · rw [Histogram.estimate, if_neg (by omega)]
      rcases hm with hm | hm
      · rw [if_pos hm]
      · rw [if_neg (by omega), if_neg (by rw [hq]; omega)]
    · rw [Histogram.count, if_neg (by omega)]
      rcases hm with hm | hm
      · rw [if_pos hm]
      · rw [if_neg (by omega), if_neg (by rw [hn]; omega)]

theorem C5_witness :
    (Quantile.estimate qReady 0 = none ∧ Quantile.count qReady 0 = none) ∧
    (Quantile.estimate qReady 6 = none ∧ Quantile.count qReady 6 = none) ∧
    (Histogram.estimate hReady 0 = none ∧ Histogram.count hReady 0 = none) ∧
    (Histogram.estimate hReady 6 = none ∧ Histogram.count hReady 6 = none) :=
  ⟨C5.1 qReady 0 (by decide) (by decide) (by decide) (Or.inl rfl),
   C5.1 qReady 6 (by decide) (by decide) (by decide) (Or.inr (by decide)),
   C5.2 hReady 0 (by decide) (by decide) (by decide) (Or.inl rfl),
   C5.2 hReady 6 (by decide) (by decide) (by decide) (Or.inr (by decide))⟩

/-- C6 (code bug): the constructors validate finite parameters exactly as
claimed — `Quantile::new` accepts a finite `p` iff `0 < p < 1` and
`Histogram::new` accepts `b` iff `4 ≤ b ≤ 65534` — but the claim that
`p = NaN` is rejected is false: `p <= 0.0 || p >= 1.0` is false for NaN,
so `Quantile::new(NaN)` succeeds and installs NaN as the percentile. -/
theorem C6 :
    (∀ pr : ℚ, (Quantile.new (Fp.finite pr)).isOk = true ↔ (0 < pr ∧ pr < 1)) ∧
    (∀ b : ℕ, b ≤ 65535 → ((Histogram.new b).isOk = true ↔ (4 ≤ b ∧ b ≤ 65534))) ∧
    Quantile.new Fp.nan = Except.ok (Quantile.init Fp.nan) := by
  refine ⟨?_, ?_, ?_⟩
  · intro pr
    rw [Quantile.new]
    by_cases h : (Fp.le (Fp.finite pr) (Fp.finite 0) ||
        Fp.le (Fp.finite 1) (Fp.finite pr)) = true
    · rw [if_pos h]
      simp only [Bool.or_eq_true, Fp.le_finite, decide_eq_true_eq] at h
      constructor
      · intro hok
        exact absurd hok (by decide)
      · intro hpr
        rcases h with h | h <;> linarith [hpr.1, hpr.2]
    · rw [if_neg h]
      simp only [Bool.or_eq_true, Fp.le_finite, decide_eq_true_eq, not_or] at h
      constructor
      · intro _
        exact ⟨by linarith [not_le.mp h.1], by linarith [not_le.mp h.2]⟩
      · intro _
        rfl
  · intro b hb
    rw [Histogram.new]
    by_cases h : (decide (b < 4) || decide (b = 65535)) = true
    · rw [if_pos h]
      simp only [Bool.or_eq_true, decide_eq_true_eq] at h
      constructor
      · intro hok
        exact absurd hok (by decide)
      · intro hpr
        omega
    · rw [if_neg h]
      simp only [Bool.or_eq_true, decide_eq_true_eq, not_or] at h
      constructor
      · intro _
        omega
      · intro _
        rfl
  · rfl

theorem C6_witness :
    ((Quantile.new (Fp.finite (mkRat 1 2))).isOk = true) ∧
    ((Histogram.new 4).isOk = true) ∧
    ¬((Quantile.new (Fp.finite 2)).isOk = true) :=
  ⟨(C6.1 (mkRat 1 2)).mpr (by constructor <;> decide),
   (C6.2.1 4 (by decide)).mpr (by constructor <;> decide),
   fun hok => absurd ((C6.1 2).mp hok) (by intro hpr; exact absurd hpr.2 (by norm_num))⟩

/-- C7: feeding NaN to `add` leaves the entire estimator state (hence
`q`, `n`, and the remaining-fill counter) unchanged, for either
estimator, in every state. -/
theorem C7 :
    (∀ s : Quantile, (s.add Fp.nan).2 = s) ∧
    (∀ t : Histogram, t.add Fp.nan = t) := by
  constructor
  · intro s
    by_cases h : s.cnt = 0
    · rw [Quantile.add_nan_ready s h]
    · rw [Quantile.add_nan_fill s h]
  · exact Histogram.add_nan

theorem Histogram.ext_fields (a b : Histogram) (hq : a.q = b.q) (hn : a.n = b.n)
    (hb : a.b = b.b) (hc : a.cnt = b.cnt) : a = b := by
  cases a
  cases b
  simp_all

/-- C8: `clear()` restores exactly the post-construction state — for the
quantile estimator unconditionally, for the histogram for any state whose
arrays have their constructed length — so replaying any input sequence
after `clear()` reproduces the run of a freshly constructed estimator
with the same parameter. -/
theorem C8 :
    (∀ (s : Quantile) (xs : List Fp),
      Quantile.clear s = Quantile.init s.p ∧
      runQ (Quantile.clear s) xs = runQ (Quantile.init s.p) xs) ∧
    (∀ (t : Histogram) (xs : List Fp),
      t.q.length = t.b + 1 → t.n.length = t.b + 1 →
      Histogram.clear t = Histogram.init t.b ∧
      runH (Histogram.clear t) xs = runH (Histogram.init t.b) xs) := by
  constructor
  · intro s xs
    exact ⟨rfl, rfl⟩
  · intro t xs hq hn
    have hclear : Histogram.clear t = Histogram.init t.b := by
      refine Histogram.ext_fields _ _ ?_ ?_ rfl rfl
      · show setZeros t.q (t.b + 1) = (Histogram.init t.b).q
        rw [Histogram.init_q, setZeros_eq _ _ (by omega)]
        rw [List.drop_eq_nil_of_le (by omega), List.append_nil]
      · show setIota t.n (t.b + 1) = (Histogram.init t.b).n
        rw [Histogram.init_n, setIota_eq _ _ (by omega)]
        rw [List.drop_eq_nil_of_le (by omega), List.append_nil]
    exact ⟨hclear, by rw [hclear]⟩

theorem C8_witness :
    Histogram.clear hReady = Histogram.init hReady.b ∧
    runH (Histogram.clear hReady) obs20 = runH (Histogram.init hReady.b) obs20 :=
  C8.2 hReady obs20 (by decide) (by decide)

/-- Modelled from the spec's words: the linear fallback written with
direct integer neighbor indexing `j` (`i + 1` when `d = +1`, `i - 1` when
`d = -1`) instead of the float-cast index of the source. -/
def linearSpec (i j : ℕ) (d : Fp) (q n : List Fp) : Fp :=
  Fp.add (fget q i)
    (Fp.div (Fp.mul d (Fp.sub (fget q j) (fget q i)))
            (Fp.sub (fget n j) (fget n i)))

/-- C9: for an interior marker `i ≥ 1` (with `i + 1` representable) and a
displacement of exactly +1 or −1, the source's `linear` — whose neighbor
index is computed as `(i as f64 + d) as usize` — agrees exactly with the
spec's direct integer neighbor indexing `i + 1` resp. `i - 1`. -/
theorem C9 (i : ℕ) (q n : List Fp) (h1 : 1 ≤ i) (hUS : i + 1 ≤ Fp.usizeMax) :
    linear i (Fp.finite 1) q n = linearSpec i (i + 1) (Fp.finite 1) q n ∧
    linear i (Fp.finite (-1)) q n = linearSpec i (i - 1) (Fp.finite (-1)) q n := by
  have hpos : (Fp.add (Fp.finite (i : ℚ)) (Fp.finite 1)).toUsize = i + 1 := by
    rw [Fp.add_finite]
    rw [show ((i : ℚ) + 1) = ((i + 1 : ℕ) : ℚ) from by push_cast; ring]
    exact Fp.toUsize_natCast _ hUS
  have hneg : (Fp.add (Fp.finite (i : ℚ)) (Fp.finite (-1))).toUsize = i - 1 := by
    rw [Fp.add_finite]
    rw [show ((i : ℚ) + (-1)) = ((i - 1 : ℕ) : ℚ) from by
      rw [Nat.cast_sub h1]
      push_cast
      ring]
    exact Fp.toUsize_natCast _ (by omega)
  constructor
  · simp only [linear, linearSpec, hpos]
  · simp only [linear, linearSpec, hneg]

theorem C9_witness :
    linear 1 (Fp.finite 1)
        [Fp.finite 0, Fp.finite 1, Fp.finite 2] [Fp.finite 1, Fp.finite 2, Fp.finite 4] =
      linearSpec 1 2 (Fp.finite 1)
        [Fp.finite 0, Fp.finite 1, Fp.finite 2] [Fp.finite 1, Fp.finite 2, Fp.finite 4] ∧
    linear 1 (Fp.finite (-1))
        [Fp.finite 0, Fp.finite 1, Fp.finite 2] [Fp.finite 1, Fp.finite 2, Fp.finite 4] =
      linearSpec 1 0 (Fp.finite (-1))
        [Fp.finite 0, Fp.finite 1, Fp.finite 2] [Fp.finite 1, Fp.finite 2, Fp.finite 4] :=
  C9 1 [Fp.finite 0, Fp.finite 1, Fp.finite 2] [Fp.finite 1, Fp.finite 2, Fp.finite 4]
    (by decide) (by decide)

set_option maxRecDepth 100000 in
/-- C10: ±∞ pass the NaN check and are processed like any other value:
during the fill phase they are stored into `q` exactly like a finite
observation, and in steady state they are counted and replace the extreme
markers — concretely, after filling with 1..5, adding +∞ sets `q[4] = +∞`
and `n[4] = 6`, and adding −∞ sets `q[0] = −∞` and `n[4] = 6`, for both
estimators. -/
theorem C10 :
    (∀ (s : Quantile) (x : Fp), (x = Fp.posInf ∨ x = Fp.negInf) → 1 < s.cnt →
      s.add x = (Fp.nan, { s with q := s.q.set (s.cnt - 1) x, cnt := s.cnt - 1 })) ∧
    (∀ (t : Histogram) (x : Fp), (x = Fp.posInf ∨ x = Fp.negInf) → 1 < t.cnt →
      t.add x = { t with q := t.q.set (t.cnt - 1) x, cnt := t.cnt - 1 }) ∧
    (fget (qReady.add Fp.posInf).2.q 4 = Fp.posInf ∧
     fget (qReady.add Fp.posInf).2.n 4 = Fp.finite 6 ∧
     fget (qReady.add Fp.negInf).2.q 0 = Fp.negInf ∧
     fget (qReady.add Fp.negInf).2.n 4 = Fp.finite 6) ∧
    (fget (hReady.add Fp.posInf).q 4 = Fp.posInf ∧
     fget (hReady.add Fp.posInf).n 4 = Fp.finite 6 ∧
     fget (hReady.add Fp.negInf).q 0 = Fp.negInf ∧
     fget (hReady.add Fp.negInf).n 4 = Fp.finite 6) := by
  refine ⟨?_, ?_, by decide, by decide⟩
  · intro s x hx hc
    exact Quantile.add_fill_eq s x (by rcases hx with h | h <;> subst h <;> rfl) hc
  · intro t x hx hc
    exact Histogram.fill_step_eq t x (by rcases hx with h | h <;> subst h <;> rfl) hc

theorem C10_witness :
    (Quantile.init (Fp.finite (mkRat 1 2))).add Fp.posInf =
      (Fp.nan, { Quantile.init (Fp.finite (mkRat 1 2)) with
        q := (Quantile.init (Fp.finite (mkRat 1 2))).q.set
          ((Quantile.init (Fp.finite (mkRat 1 2))).cnt - 1) Fp.posInf,
        cnt := (Quantile.init (Fp.finite (mkRat 1 2))).cnt - 1 }) :=
  C10.1 (Quantile.init (Fp.finite (mkRat 1 2))) Fp.posInf (Or.inl rfl) (by decide)

/-- C5 counterexample: on a not-ready estimator the marker is never
inspected, so an out-of-range marker does not fail at all: a fresh
Quantile returns its NaN sentinel and count 0 even for `marker = 0`. -/
theorem C5_counterexample :
    Quantile.estimate (Quantile.init (Fp.finite (mkRat 1 2))) 0 = some Fp.nan ∧
    Quantile.count (Quantile.init (Fp.finite (mkRat 1 2))) 0 = some 0 := by
  constructor <;> rfl
